import Mathlib

/-!
# Verification of the README-updating utility (`build_readme.py`)

This file gives a shallow embedding of the data model and operations of the
repository's `build_readme.py` and proves the specification claims about it.

Strings are modelled as `List Char` (Python `str` is a sequence of code
points, and `Char` is a unicode scalar value).  Calls to the remote API are
modelled by passing in the data the API would return, with `Except Unit`
marking the points where the Python code can observe an exception.
-/

namespace BuildReadme

/-- Characters matched by `\s` in Python's `re` module and stripped by
`str.strip()`, restricted to the ASCII range in which all the documents and
markers of this program live. -/
def isWS (c : Char) : Bool :=
  c = ' ' || c = '\t' || c = '\n' || c = '\r' || c = '\x0b' || c = '\x0c'

/-- Python string comparison (`<` on `str`): lexicographic on code points. -/
def strLt : List Char → List Char → Bool
  | [], [] => false
  | [], _ :: _ => true
  | _ :: _, [] => false
  | a :: as, b :: bs => if a < b then true else if b < a then false else strLt as bs

theorem strLt_irrefl : ∀ s : List Char, strLt s s = false := by
  intro s
  induction s with
  | nil => rfl
  | cons a as ih => simp [strLt, ih]

theorem strLt_asymm : ∀ x y : List Char, strLt x y = true → strLt y x = false := by
  intro x
  induction x with
  | nil =>
    intro y hy
    cases y with
    | nil => simp [strLt]
    | cons b bs => simp [strLt]
  | cons a as ih =>
    intro y hy
    cases y with
    | nil => simp [strLt] at hy
    | cons b bs =>
      simp only [strLt] at hy ⊢
      by_cases hab : a < b
      · have hba : ¬ b < a := lt_asymm hab
        simp [hab, hba]
      · by_cases hba : b < a
        · simp [hab, hba] at hy
        · simp [hab, hba] at hy ⊢
          exact ih bs hy

theorem strLt_false_trans :
    ∀ x y z : List Char, strLt x y = false → strLt y z = false → strLt x z = false := by
  intro x
  induction x with
  | nil =>
    intro y z hxy hyz
    cases y with
    | nil => exact hyz
    | cons b bs => simp [strLt] at hxy
  | cons a as ih =>
    intro y z hxy hyz
    cases z with
    | nil => rfl
    | cons c cs =>
      cases y with
      | nil => simp [strLt] at hyz
      | cons b bs =>
        simp only [strLt] at hxy hyz ⊢
        by_cases hab : a < b
        · simp [hab] at hxy
        · by_cases hbc : b < c
          · simp [hbc] at hyz
          · have hac : ¬ a < c := fun h => by
              rcases lt_trichotomy a b with h1 | h1 | h1
              · exact hab h1
              · subst h1; exact hbc h
              · rcases lt_trichotomy b c with h2 | h2 | h2
                · exact hbc h2
                · subst h2; exact hab h
                · exact absurd (lt_trans h2 h1) (asymm h)
            by_cases hca : c < a
            · simp [hac, hca]
            · have hb : a = c := le_antisymm (not_lt.mp hca) (not_lt.mp hac)
              subst hb
              have hba : b = a := le_antisymm (not_lt.mp hab) (not_lt.mp hbc)
              subst hba
              simp [hab] at hxy hyz ⊢
              exact ih bs cs hxy hyz

/-! ## Data model: API inputs and records produced by the script -/

/-- Data of one release as returned by the hosting service's API.
`title` is `none` when the release has a null title (Python `None`); an
empty-string title is `some []`.  `published_at` is the publish date already
rendered as `YYYY-MM-DD` (`strftime("%Y-%m-%d")` in the source), `none` when
the release has no recorded publish time. -/
structure ApiRelease where
  title : Option (List Char)
  tag_name : List Char
  published_at : Option (List Char)
  html_url : List Char
deriving DecidableEq

/-- Data of one repository as returned by the API.  `releasesResult` is the
outcome of `list(repo.get_releases())` for this repository: `Except.error ()`
models the exception caught by the per-repository `try` block in
`fetch_releases`. -/
structure ApiRepo where
  name : List Char
  html_url : List Char
  description : Option (List Char)
  fork : Bool
  stargazers_count : Nat
  forks_count : Nat
  releasesResult : Except Unit (List ApiRelease)

/-- A release record as appended to the `releases` list in `fetch_releases`. -/
structure Release where
  repo : List Char
  repo_url : List Char
  description : List Char
  release : List Char
  published_at : List Char
  url : List Char
deriving DecidableEq

/-- Stats record: followers / stars / forks, as in the Python dicts. -/
structure Stats where
  followers : Nat
  stars : Nat
  forks : Nat
deriving DecidableEq

/-! ## Release label (`fetch_releases`, line 97 of the source)

`release.title.replace(repo.name, "").strip() if release.title else release.tag_name`
-/

/-- Python `str.replace(old, new)` with `new = ""`: remove all non-overlapping
occurrences of `pat`, scanning left to right.  (`"".replace("", "")` leaves
the string unchanged, which the `pat = []` behaviour below reproduces.)
The fuel argument of `removeOccF` is decremented once per character consumed,
so `s.length` fuel always suffices. -/
def removeOccF (pat : List Char) : Nat → List Char → List Char
  | 0, s => s
  | fuel + 1, s =>
    match s with
    | [] => []
    | c :: t =>
      if pat ≠ [] ∧ pat.isPrefixOf (c :: t) then
        removeOccF pat fuel ((c :: t).drop pat.length)
      else c :: removeOccF pat fuel t

/-- Remove every occurrence of `pat` from `s` (Python `s.replace(pat, "")`). -/
def removeOcc (pat s : List Char) : List Char := removeOccF pat s.length s

/-- Python `str.strip()`: drop leading and trailing whitespace. -/
def strip (s : List Char) : List Char :=
  ((s.dropWhile isWS).reverse.dropWhile isWS).reverse

/-- The release label computed in `fetch_releases`:
`release.title.replace(repo.name, "").strip() if release.title else release.tag_name`.
Python truthiness makes both a `None` title and an empty title take the
`tag_name` branch. -/
def releaseLabel (title : Option (List Char)) (tag_name repoName : List Char) : List Char :=
  match title with
  | none => tag_name
  | some t => if t = [] then tag_name else strip (removeOcc repoName t)

/-- The record built for one release of one repository (`releases.append` in
`fetch_releases`).  `repo.description or ""` maps a `None` (and an empty)
description to the empty string, and a missing publish time to `""`. -/
def releaseRecord (repo : ApiRepo) (rel : ApiRelease) : Release where
  repo := repo.name
  repo_url := repo.html_url
  description := repo.description.getD []
  release := releaseLabel rel.title rel.tag_name repo.name
  published_at := rel.published_at.getD []
  url := rel.html_url

/-- Records contributed by a single repository in `fetch_releases`: forks are
skipped, a failure while fetching this repository's releases is caught and
yields nothing, and otherwise at most the first 5 releases are mapped. -/
def repoRecords (repo : ApiRepo) : List Release :=
  if repo.fork then []
  else
    match repo.releasesResult with
    | Except.error _ => []
    | Except.ok rels => (rels.take 5).map (releaseRecord repo)

/-- `fetch_releases`: the outer `try` returns `[]` when repository enumeration
itself fails; otherwise each repository contributes `repoRecords`. -/
def fetch_releases (enum : Except Unit (List ApiRepo)) : List Release :=
  match enum with
  | Except.error _ => []
  | Except.ok repos => (repos.map repoRecords).flatten

/-! ## `fetch_github_stats` -/

/-- The summation loop of `fetch_github_stats` over the stream of repositories
returned by `user.get_repos(type='owner')`.  An `Except.error` element models
the iteration step at which the underlying API call raises; the whole loop
then aborts with that exception. -/
def sumRepoStats : List (Except Unit ApiRepo) → Nat → Nat → Except Unit (Nat × Nat)
  | [], stars, forks => Except.ok (stars, forks)
  | Except.error _ :: _, _, _ => Except.error ()
  | Except.ok r :: rest, stars, forks =>
    if r.fork then sumRepoStats rest stars forks
    else sumRepoStats rest (stars + r.stargazers_count) (forks + r.forks_count)

/-- `fetch_github_stats(oauth_token, current_stats)`: sums stars and forks over
owned non-fork repositories and reads the follower count; any exception inside
the `try` block is caught and `current_stats or {'stars': 0, ...}` is
returned (`none` models Python `None` for the `current_stats` argument). -/
def fetch_github_stats (repoStream : List (Except Unit ApiRepo))
    (followersResult : Except Unit Nat) (current_stats : Option Stats) : Stats :=
  match sumRepoStats repoStream 0 0 with
  | Except.error _ => current_stats.getD ⟨0, 0, 0⟩
  | Except.ok (stars, forks) =>
    match followersResult with
    | Except.error _ => current_stats.getD ⟨0, 0, 0⟩
    | Except.ok fl => ⟨fl, stars, forks⟩

/-! ## Post-processing in `main` (lines 204-222)

`releases.sort(key=lambda r: r["published_at"], reverse=True)` is a stable
sort; with `reverse=True` an element goes before another exactly when its key
is not smaller.  `List.insertionSort` with that relation is stable in the same
sense, so it is extensionally the same function as Python's sort. -/

/-- `a` may be placed before `b` by the descending sort in `main`. -/
def relDesc (a b : Release) : Prop :=
  strLt a.published_at b.published_at = false

instance : DecidableRel relDesc := fun a b => by
  unfold relDesc; infer_instance

instance : IsTotal Release relDesc where
  total a b := by
    unfold relDesc
    cases hab : strLt a.published_at b.published_at with
    | false => exact Or.inl rfl
    | true => exact Or.inr (strLt_asymm _ _ hab)

instance : IsTrans Release relDesc where
  trans _ _ _ hab hbc := strLt_false_trans _ _ _ hab hbc

/-- The sort in `main`: by publish date, descending, stable. -/
def sortReleases (rs : List Release) : List Release :=
  List.insertionSort relDesc rs

/-- The dedup loop in `main`: keep the first record seen for each repository
name, threading the `seen_repos` set (modelled as the list of names seen). -/
def dedupByRepo : List Release → List (List Char) → List Release
  | [], _ => []
  | r :: rs, seen =>
    if r.repo ∈ seen then dedupByRepo rs seen
    else r :: dedupByRepo rs (r.repo :: seen)

/-- The whole post-processing of `main`: sort by date descending, dedup by
repository keeping the first (most recent) record, truncate to 6
(`unique_releases[:6]`). -/
def postProcess (rs : List Release) : List Release :=
  (dedupByRepo (sortReleases rs) []).take 6

theorem dedupByRepo_sublist : ∀ (l : List Release) (seen : List (List Char)),
    (dedupByRepo l seen).Sublist l := by
  intro l
  induction l with
  | nil => intro seen; simp [dedupByRepo]
  | cons x xs ih =>
    intro seen
    by_cases hx : x.repo ∈ seen
    · simp only [dedupByRepo, if_pos hx]
      exact (ih seen).cons x
    · simp only [dedupByRepo, if_neg hx]
      exact (ih (x.repo :: seen)).cons₂ x

theorem dedupByRepo_not_seen : ∀ (l : List Release) (seen : List (List Char)) (r : Release),
    r ∈ dedupByRepo l seen → r.repo ∉ seen := by
  intro l
  induction l with
  | nil => intro seen r hr; simp [dedupByRepo] at hr
  | cons x xs ih =>
    intro seen r hr
    by_cases hx : x.repo ∈ seen
    · simp only [dedupByRepo, if_pos hx] at hr
      exact ih seen r hr
    · simp only [dedupByRepo, if_neg hx, List.mem_cons] at hr
      rcases hr with rfl | hr
      · exact hx
      · intro hs
        exact ih _ r hr (List.mem_cons_of_mem _ hs)

theorem dedupByRepo_distinct : ∀ (l : List Release) (seen : List (List Char)),
    (dedupByRepo l seen).Pairwise (fun a b => a.repo ≠ b.repo) := by
  intro l
  induction l with
  | nil => intro seen; simp [dedupByRepo]
  | cons x xs ih =>
    intro seen
    by_cases hx : x.repo ∈ seen
    · simpa only [dedupByRepo, if_pos hx] using ih seen
    · simp only [dedupByRepo, if_neg hx]
      refine List.Pairwise.cons ?_ (ih (x.repo :: seen))
      intro b hb hrepo
      exact dedupByRepo_not_seen _ _ _ hb (by simp [hrepo])

/-- In a date-descending-sorted list, every survivor of the dedup pass has the
(lexicographically) greatest date among the list's records for its repository. -/
theorem dedupByRepo_max_date : ∀ (l : List Release) (seen : List (List Char)),
    l.Sorted relDesc → ∀ r ∈ dedupByRepo l seen, r ∈ l ∧
      ∀ s ∈ l, s.repo = r.repo → strLt r.published_at s.published_at = false := by
  intro l
  induction l with
  | nil => intro seen _ r hr; simp [dedupByRepo] at hr
  | cons x xs ih =>
    intro seen hsort r hr
    have hx_rel : ∀ s ∈ xs, relDesc x s := List.rel_of_sorted_cons hsort
    have hxs : xs.Sorted relDesc := hsort.of_cons
    by_cases hx : x.repo ∈ seen
    · simp only [dedupByRepo, if_pos hx] at hr
      obtain ⟨hmem, hmax⟩ := ih seen hxs r hr
      have hrs : r.repo ∉ seen := dedupByRepo_not_seen _ _ _ hr
      refine ⟨List.mem_cons_of_mem _ hmem, ?_⟩
      intro s hs hrepo
      rcases List.mem_cons.mp hs with rfl | hs
      · exact absurd (hrepo ▸ hx) hrs
      · exact hmax s hs hrepo
    · simp only [dedupByRepo, if_neg hx, List.mem_cons] at hr
      rcases hr with rfl | hr
      · refine ⟨List.mem_cons_self _ _, ?_⟩
        intro s hs hrepo
        rcases List.mem_cons.mp hs with rfl | hs
        · exact strLt_irrefl _
        · exact hx_rel s hs
      · obtain ⟨hmem, hmax⟩ := ih _ hxs r hr
        have hrs : r.repo ∉ x.repo :: seen := dedupByRepo_not_seen _ _ _ hr
        refine ⟨List.mem_cons_of_mem _ hmem, ?_⟩
        intro s hs hrepo
        rcases List.mem_cons.mp hs with rfl | hs
        · exact absurd (by simp [hrepo]) hrs
        · exact hmax s hs hrepo

/-- Dedup leaves a list with pairwise-distinct repository names untouched. -/
theorem dedupByRepo_of_distinct : ∀ (l : List Release) (seen : List (List Char)),
    l.Pairwise (fun a b => a.repo ≠ b.repo) → (∀ r ∈ l, r.repo ∉ seen) →
    dedupByRepo l seen = l := by
  intro l
  induction l with
  | nil => intro seen _ _; rfl
  | cons x xs ih =>
    intro seen hpair hseen
    have hx : x.repo ∉ seen := hseen x (List.mem_cons_self _ _)
    simp only [dedupByRepo, if_neg hx]
    congr 1
    refine ih _ hpair.of_cons ?_
    intro r hr
    simp only [List.mem_cons]
    rintro (h | h)
    · exact (List.pairwise_cons.mp hpair).1 r hr h.symm
    · exact hseen r (List.mem_cons_of_mem _ hr) h

/-- C2: the post-processing in `main` — sort by `published_at` descending
(string comparison), first-seen dedup by repository name, truncate — yields at
most 6 records, at most one per repository, each survivor drawn from the input
with the lexicographically greatest `published_at` among its repository's
records, in non-increasing date order; of two same-repository records with
different dates only the later survives, and 10 distinct repositories with one
release each yield exactly 6 entries. -/
theorem postProcess_spec (rs : List Release) :
    (postProcess rs).length ≤ 6 ∧
    (postProcess rs).Pairwise (fun a b => a.repo ≠ b.repo) ∧
    (∀ r ∈ postProcess rs, r ∈ rs ∧
      ∀ s ∈ rs, s.repo = r.repo → strLt r.published_at s.published_at = false) ∧
    (postProcess rs).Sorted relDesc ∧
    (∀ a b : Release, rs = [a, b] → a.repo = b.repo →
      strLt a.published_at b.published_at = true → postProcess rs = [b]) ∧
    (rs.length = 10 → rs.Pairwise (fun a b => a.repo ≠ b.repo) →
      (postProcess rs).length = 6) := by
  have hperm := List.perm_insertionSort relDesc rs
  have hsort := List.sorted_insertionSort relDesc rs
  have hsub : (postProcess rs).Sublist (sortReleases rs) :=
    (List.take_sublist _ _).trans (dedupByRepo_sublist _ _)
  refine ⟨?_, ?_, ?_, ?_, ?_, ?_⟩
  · calc (postProcess rs).length = min 6 (dedupByRepo (sortReleases rs) []).length :=
          List.length_take _ _
      _ ≤ 6 := min_le_left _ _
  · exact (dedupByRepo_distinct _ _).sublist (List.take_sublist _ _)
  · intro r hr
    have hr' : r ∈ dedupByRepo (sortReleases rs) [] := List.mem_of_mem_take hr
    obtain ⟨hmem, hmax⟩ := dedupByRepo_max_date _ [] hsort r hr'
    refine ⟨hperm.mem_iff.mp hmem, ?_⟩
    intro s hs hrepo
    exact hmax s (hperm.mem_iff.mpr hs) hrepo
  · exact hsort.sublist hsub
  · rintro a b rfl hrepo hdate
    have h1 : sortReleases [a, b] = [b, a] := by
      have hna : ¬ relDesc a b := by simp [relDesc, hdate]
      simp [sortReleases, List.insertionSort, List.orderedInsert, hna]
    have h2 : dedupByRepo [b, a] [] = [b] := by
      simp [dedupByRepo, hrepo]
    simp [postProcess, h1, h2]
  · intro hlen hdist
    have hdist' : (sortReleases rs).Pairwise (fun a b => a.repo ≠ b.repo) :=
      (hperm.pairwise_iff (fun h h' => h h'.symm)).mpr hdist
    have hded : dedupByRepo (sortReleases rs) [] = sortReleases rs :=
      dedupByRepo_of_distinct _ _ hdist' (by simp)
    have hlen' : (sortReleases rs).length = 10 := hperm.length_eq.trans hlen
    simp [postProcess, hded, List.length_take, hlen']

/-- Witness for `postProcess_spec`: at a concrete two-record input for the same
repository, the later-dated record alone survives. -/
theorem postProcess_spec_witness :
    postProcess [⟨['r'], [], [], [], ['2'], []⟩, ⟨['r'], [], [], [], ['3'], []⟩] =
      [⟨['r'], [], [], [], ['3'], []⟩] :=
  ((postProcess_spec _).2.2.2.2.1 _ _ rfl (by decide) (by decide))

theorem sumRepoStats_error : ∀ (stream : List (Except Unit ApiRepo)) (s f : Nat),
    (Except.error () : Except Unit ApiRepo) ∈ stream →
    sumRepoStats stream s f = Except.error () := by
  intro stream
  induction stream with
  | nil => intro s f h; simp at h
  | cons x rest ih =>
    intro s f h
    cases x with
    | error e => rfl
    | ok r =>
      have hr : (Except.error () : Except Unit ApiRepo) ∈ rest := by
        rcases List.mem_cons.mp h with h | h
        · exact absurd h.symm (by simp)
        · exact h
      by_cases hf : r.fork
      · simp [sumRepoStats, hf, ih _ _ hr]
      · simp [sumRepoStats, hf, ih _ _ hr]

/-- C3: whenever any step of repository enumeration fails, or reading the
follower count fails, `fetch_github_stats` returns the supplied fallback
record exactly — no partial star or fork sums are merged in. -/
theorem fetch_github_stats_fallback (repoStream : List (Except Unit ApiRepo))
    (followersResult : Except Unit Nat) (fb : Stats)
    (h : (Except.error () : Except Unit ApiRepo) ∈ repoStream ∨
      followersResult = Except.error ()) :
    fetch_github_stats repoStream followersResult (some fb) = fb := by
  rcases h with h | h
  · unfold fetch_github_stats
    rw [sumRepoStats_error _ _ _ h]
    rfl
  · unfold fetch_github_stats
    cases hs : sumRepoStats repoStream 0 0 with
    | error e => rfl
    | ok p => cases p with
      | mk s f =>
        rw [h]
        rfl

/-- Witness for `fetch_github_stats_fallback` at a concrete failing stream. -/
theorem fetch_github_stats_fallback_witness :
    fetch_github_stats [Except.error ()] (Except.ok 5) (some ⟨1, 2, 3⟩) = ⟨1, 2, 3⟩ :=
  fetch_github_stats_fallback _ _ _ (Or.inl (List.mem_cons_self _ _))

/-- C4: a repository whose release fetch fails contributes no record at all,
and the records of every repository before and after it are unaffected. -/
theorem fetch_releases_skips_failed (pre post : List ApiRepo) (bad : ApiRepo)
    (hb : bad.releasesResult = Except.error ()) :
    repoRecords bad = [] ∧
    fetch_releases (Except.ok (pre ++ bad :: post)) =
      fetch_releases (Except.ok pre) ++ fetch_releases (Except.ok post) := by
  have h1 : repoRecords bad = [] := by
    cases hf : bad.fork <;> simp [repoRecords, hb, hf]
  exact ⟨h1, by simp [fetch_releases, h1]⟩

/-- Witness for `fetch_releases_skips_failed` at a concrete repository list. -/
theorem fetch_releases_skips_failed_witness :
    fetch_releases (Except.ok [⟨['a'], [], none, false, 0, 0, Except.ok []⟩,
        ⟨['b'], [], none, false, 0, 0, Except.error ()⟩,
        ⟨['c'], [], none, false, 0, 0, Except.ok []⟩]) =
      fetch_releases (Except.ok [⟨['a'], [], none, false, 0, 0, Except.ok []⟩]) ++
        fetch_releases (Except.ok [⟨['c'], [], none, false, 0, 0, Except.ok []⟩]) :=
  (fetch_releases_skips_failed [⟨['a'], [], none, false, 0, 0, Except.ok []⟩]
    [⟨['c'], [], none, false, 0, 0, Except.ok []⟩] _ rfl).2

/-- C9 counterexample: a release whose title is present but empty (`""` is
falsy in Python) takes the `tag_name` branch even though the title is not
absent — the raw tag is not used "only when the title itself is absent". -/
theorem releaseLabel_empty_title_cex :
    releaseLabel (some []) ['v', '1'] ['r'] = ['v', '1'] ∧
      some ([] : List Char) ≠ none := by
  exact ⟨rfl, by simp⟩

/-- C9 amended: for a non-empty title the label is the title with every
occurrence of the repository name removed and surrounding whitespace trimmed
(even when that yields the empty string); the raw tag identifier is used
exactly when the title is absent or empty. -/
theorem releaseLabel_spec (title : Option (List Char)) (tag_name repoName : List Char) :
    (∀ t, title = some t → t ≠ [] →
      releaseLabel title tag_name repoName = strip (removeOcc repoName t)) ∧
    (title = none ∨ title = some [] → releaseLabel title tag_name repoName = tag_name) := by
  constructor
  · rintro t rfl ht
    simp [releaseLabel, ht]
  · rintro (rfl | rfl) <;> simp [releaseLabel]

/-- Witness for `releaseLabel_spec` at a concrete non-empty title. -/
theorem releaseLabel_spec_witness :
    releaseLabel (some ['r', ' ', 'v', '1']) ['t'] ['r'] =
      strip (removeOcc ['r'] ['r', ' ', 'v', '1']) :=
  (releaseLabel_spec _ _ _).1 _ rfl (by simp)

/-! ## `extract_current_stats` (lines 126-138)

The Python code runs `re.search` with the pattern
`(\d{1,3}(?:,\d{3})*)\s*followers,\s*(\d{1,3}(?:,\d{3})*)\s*stars,\s*(\d{1,3}(?:,\d{3})*)\s*forks`.
The embedding below implements exactly the backtracking search of that
pattern: positions are tried left to right; at a position the greedy
`\d{1,3}` tries 3, 2, then 1 digits, the greedy `(?:,\d{3})*` tries the
longest chain first, and each `\s*` occurs directly before a token whose
first character is not whitespace (a digit, `f` or `s`), so the
maximal-munch `dropWhile` is exactly the regex's greedy-with-backtracking
behaviour for it. -/

/-- Capture candidates of `\d{1,3}` at the head of `s` for one given length
`k`, as (captured, remainder). -/
def digCand (k : Nat) (s : List Char) : Option (List Char × List Char) :=
  if (s.take k).length = k ∧ (s.take k).all Char.isDigit then
    some (s.take k, s.drop k) else none

/-- All capture candidates of `\d{1,3}` at the head of `s`, greedy order. -/
def d13Cands (s : List Char) : List (List Char × List Char) :=
  [3, 2, 1].filterMap fun k => digCand k s

/-- All capture candidates of `(?:,\d{3})*` at the head of `s`, longest
(greediest) first. -/
def starCands : List Char → List (List Char × List Char)
  | ',' :: a :: b :: c :: r =>
    if a.isDigit && b.isDigit && c.isDigit then
      ((starCands r).map fun p => (',' :: a :: b :: c :: p.1, p.2)) ++
        [([], ',' :: a :: b :: c :: r)]
    else [([], ',' :: a :: b :: c :: r)]
  | s => [([], s)]

/-- All capture candidates of the whole group `\d{1,3}(?:,\d{3})*` at the
head of `s`, in the regex's backtracking preference order. -/
def numCands (s : List Char) : List (List Char × List Char) :=
  (d13Cands s).flatMap fun p => (starCands p.2).map fun q => (p.1 ++ q.1, q.2)

/-- Does `s` consist exactly of groups `,ddd` (the `(?:,\d{3})*` part)? -/
def groupsOf3 : List Char → Bool
  | [] => true
  | ',' :: a :: b :: c :: r => a.isDigit && b.isDigit && c.isDigit && groupsOf3 r
  | _ => false

/-- Does `s` match `\d{1,3}(?:,\d{3})*` exactly (a comma-grouped integer)? -/
def isNumeral (s : List Char) : Bool :=
  [1, 2, 3].any fun k =>
    ((s.take k).length == k) && (s.take k).all Char.isDigit && groupsOf3 (s.drop k)

/-- Consume an exact literal from the head of `s`. -/
def dropLit : List Char → List Char → Option (List Char)
  | [], s => some s
  | _ :: _, [] => none
  | c :: cs, x :: xs => if c = x then dropLit cs xs else none

/-- Consume `\s*` (maximal munch). -/
def skipWS (s : List Char) : List Char := s.dropWhile isWS

def followersLit : List Char := ['f', 'o', 'l', 'l', 'o', 'w', 'e', 'r', 's', ',']

def starsLit : List Char := ['s', 't', 'a', 'r', 's', ',']

def forksLit : List Char := ['f', 'o', 'r', 'k', 's']

/-- Try to match the whole stats pattern anchored at the head of `s`,
returning the three captured groups of the first (most preferred)
successful assignment. -/
def statsAt (s : List Char) : Option (List Char × List Char × List Char) :=
  (numCands s).findSome? fun p1 =>
    (dropLit followersLit (skipWS p1.2)).bind fun s2 =>
      (numCands (skipWS s2)).findSome? fun p2 =>
        (dropLit starsLit (skipWS p2.2)).bind fun s3 =>
          (numCands (skipWS s3)).findSome? fun p3 =>
            (dropLit forksLit (skipWS p3.2)).bind fun _ =>
              some (p1.1, p2.1, p3.1)

/-- `re.search`: try every position left to right, first match wins. -/
def searchStats : List Char → Option (List Char × List Char × List Char)
  | [] => none
  | c :: t =>
    match statsAt (c :: t) with
    | some g => some g
    | none => searchStats t

/-- `match.group(i).replace(',', '')`. -/
def stripCommas (s : List Char) : List Char := s.filter fun c => c ≠ ','

/-- Python `int()` on a (comma-stripped) decimal digit string. -/
def digitsToNat (s : List Char) : Nat := s.foldl (fun n c => n * 10 + (c.toNat - 48)) 0

/-- `extract_current_stats`: parse the three groups of the first match, or
return all zeros when nothing matches.  The function is total — it can never
raise. -/
def extract_current_stats (readme_content : List Char) : Stats :=
  match searchStats readme_content with
  | some (g1, g2, g3) =>
    ⟨digitsToNat (stripCommas g1), digitsToNat (stripCommas g2), digitsToNat (stripCommas g3)⟩
  | none => ⟨0, 0, 0⟩

/-- The specification-level reading of "the text contains the stats pattern
with groups `g1`, `g2`, `g3`": the document decomposes around three
comma-grouped integers and the three literals with optional whitespace, as
the regex describes. -/
def StatsOccurrence (doc g1 g2 g3 : List Char) : Prop :=
  ∃ pre w1 w2 w3 w4 w5 post,
    doc = pre ++ g1 ++ w1 ++ followersLit ++ w2 ++ g2 ++ w3 ++ starsLit ++
      w4 ++ g3 ++ w5 ++ forksLit ++ post ∧
    isNumeral g1 = true ∧ isNumeral g2 = true ∧ isNumeral g3 = true ∧
    w1.all isWS = true ∧ w2.all isWS = true ∧ w3.all isWS = true ∧
    w4.all isWS = true ∧ w5.all isWS = true

/-! ### Character-class facts -/

theorem isWS_cases (c : Char) (h : isWS c = true) :
    c = ' ' ∨ c = '\t' ∨ c = '\n' ∨ c = '\r' ∨ c = '\x0b' ∨ c = '\x0c' := by
  have h' := h
  simp only [isWS, Bool.or_eq_true, decide_eq_true_eq] at h'
  tauto

theorem not_WS_of_digit (c : Char) (h : c.isDigit = true) : isWS c = false := by
  cases hw : isWS c with
  | false => rfl
  | true =>
    rcases isWS_cases c hw with rfl | rfl | rfl | rfl | rfl | rfl <;> simp at h

theorem ne_comma_of_WS (c : Char) (h : isWS c = true) : c ≠ ',' := by
  rcases isWS_cases c h with rfl | rfl | rfl | rfl | rfl | rfl <;> simp

theorem ne_comma_of_digit (c : Char) (h : c.isDigit = true) : c ≠ ',' := by
  rintro rfl; simp at h

/-! ### Splitting and rebuilding lemmas for the pattern matcher -/

theorem dropLit_split : ∀ lit s r : List Char, dropLit lit s = some r → s = lit ++ r := by
  intro lit
  induction lit with
  | nil => intro s r h; simpa [dropLit] using (by simpa [dropLit] using h : s = r) ▸ rfl
  | cons c cs ih =>
    intro s r h
    cases s with
    | nil => simp [dropLit] at h
    | cons x xs =>
      simp only [dropLit] at h
      by_cases hcx : c = x
      · subst hcx
        simp only [if_pos rfl] at h
        simpa using ih xs r h
      · simp [if_neg hcx] at h

theorem dropLit_append : ∀ lit r : List Char, dropLit lit (lit ++ r) = some r := by
  intro lit
  induction lit with
  | nil => intro r; rfl
  | cons c cs ih => intro r; simp [dropLit, ih r]

theorem skipWS_append (w v : List Char) (hw : w.all isWS = true)
    (hv : ∀ c, v.head? = some c → isWS c = false) : skipWS (w ++ v) = v := by
  induction w with
  | nil =>
    cases v with
    | nil => rfl
    | cons c t =>
      have := hv c rfl
      simp [skipWS, List.dropWhile_cons, this]
  | cons c w' ih =>
    simp only [List.all_cons, Bool.and_eq_true] at hw
    simp [skipWS, List.dropWhile_cons, hw.1]
    simpa [skipWS] using ih hw.2

theorem skipWS_decomp (s : List Char) :
    s = s.takeWhile isWS ++ skipWS s ∧ (s.takeWhile isWS).all isWS = true := by
  constructor
  · exact (List.takeWhile_append_dropWhile isWS s).symm
  · rw [List.all_eq_true]
    intro c hc
    exact List.mem_takeWhile_imp hc

/-! ### Soundness of the candidate enumerations -/

theorem digCand_split (k : Nat) (s : List Char) (p : List Char × List Char)
    (h : digCand k s = some p) :
    s = p.1 ++ p.2 ∧ p.1.length = k ∧ p.1.all Char.isDigit = true := by
  unfold digCand at h
  split at h
  · rename_i hcond
    cases h
    exact ⟨(List.take_append_drop k s).symm, hcond.1, hcond.2⟩
  · cases h

theorem digCand_append (d u : List Char) (hd : d.all Char.isDigit = true) :
    digCand d.length (d ++ u) = some (d, u) := by
  unfold digCand
  rw [List.take_left, List.drop_left]
  simp [hd]

theorem d13_split (s : List Char) (p : List Char × List Char) (h : p ∈ d13Cands s) :
    s = p.1 ++ p.2 ∧ 1 ≤ p.1.length ∧ p.1.length ≤ 3 ∧ p.1.all Char.isDigit = true := by
  simp only [d13Cands, List.mem_filterMap] at h
  obtain ⟨k, hk, hck⟩ := h
  obtain ⟨hs, hlen, hdig⟩ := digCand_split k s p hck
  have hk' : k = 3 ∨ k = 2 ∨ k = 1 := by simpa using hk
  refine ⟨hs, ?_, ?_, hdig⟩ <;> rcases hk' with rfl | rfl | rfl <;> omega

theorem d13_mem (d u : List Char) (h1 : 1 ≤ d.length) (h3 : d.length ≤ 3)
    (hd : d.all Char.isDigit = true) : (d, u) ∈ d13Cands (d ++ u) := by
  simp only [d13Cands, List.mem_filterMap]
  refine ⟨d.length, ?_, digCand_append d u hd⟩
  have : d.length = 1 ∨ d.length = 2 ∨ d.length = 3 := by omega
  rcases this with h | h | h <;> simp [h]

theorem starCands_split : ∀ (s : List Char) (p : List Char × List Char),
    p ∈ starCands s → s = p.1 ++ p.2 ∧ groupsOf3 p.1 = true := by
  intro s
  induction s using starCands.induct with
  | case1 a b c r hd ih =>
    intro p hp
    rw [starCands, if_pos hd] at hp
    rcases List.mem_append.mp hp with hp | hp
    · obtain ⟨q, hq, rfl⟩ := List.mem_map.mp hp
      obtain ⟨hr, hg⟩ := ih q hq
      refine ⟨by simp [hr], ?_⟩
      simp only [groupsOf3]
      simp only [Bool.and_eq_true] at hd ⊢
      exact ⟨⟨⟨hd.1.1, hd.1.2⟩, hd.2⟩, hg⟩
    · simp only [List.mem_singleton] at hp
      subst hp
      exact ⟨rfl, rfl⟩
  | case2 a b c r hd =>
    intro p hp
    rw [starCands, if_neg hd] at hp
    simp only [List.mem_singleton] at hp
    subst hp
    exact ⟨rfl, rfl⟩
  | case3 s hs =>
    intro p hp
    rw [starCands.eq_def] at hp
    split at hp
    · exact absurd rfl (hs _ _ _ _)
    · simp only [List.mem_singleton] at hp
      subst hp
      exact ⟨rfl, rfl⟩

theorem starCands_base : ∀ s : List Char, ([], s) ∈ starCands s := by
  intro s
  rw [starCands.eq_def]
  split
  · split <;> simp
  · simp

theorem starCands_not_comma (u : List Char) (hu : ∀ c, u.head? = some c → c ≠ ',') :
    starCands u = [([], u)] := by
  rw [starCands.eq_def]
  split
  · rename_i a b c r
    exact absurd rfl (hu ',' rfl)
  · rfl

theorem starCands_mem : ∀ (t u : List Char), groupsOf3 t = true →
    (∀ c, u.head? = some c → c ≠ ',') → (t, u) ∈ starCands (t ++ u) := by
  intro t
  induction t using groupsOf3.induct with
  | case1 =>
    intro u _ hu
    exact starCands_base u
  | case2 a b c r ih =>
    intro u ht hu
    simp only [groupsOf3, Bool.and_eq_true] at ht
    have hd : (a.isDigit && b.isDigit && c.isDigit) = true := by
      simp [ht.1.1.1, ht.1.1.2, ht.1.2]
    simp only [List.cons_append]
    rw [starCands, if_pos hd]
    refine List.mem_append_left _ ?_
    exact List.mem_map.mpr ⟨(r, u), ih u ht.2 hu, rfl⟩
  | case3 t h1 h2 =>
    intro u ht hu
    rw [groupsOf3.eq_def] at ht
    split at ht
    · exact (h1 rfl).elim
    · exact (h2 _ _ _ _ rfl).elim
    · simp at ht

theorem starCands_first : ∀ (t u : List Char), groupsOf3 t = true →
    (∀ c, u.head? = some c → c ≠ ',') →
    ∃ rest, starCands (t ++ u) = (t, u) :: rest := by
  intro t
  induction t using groupsOf3.induct with
  | case1 =>
    intro u _ hu
    exact ⟨[], by simpa using starCands_not_comma u hu⟩
  | case2 a b c r ih =>
    intro u ht hu
    simp only [groupsOf3, Bool.and_eq_true] at ht
    have hd : (a.isDigit && b.isDigit && c.isDigit) = true := by
      simp [ht.1.1.1, ht.1.1.2, ht.1.2]
    obtain ⟨rest, hrest⟩ := ih u ht.2 hu
    simp only [List.cons_append]
    rw [starCands, if_pos hd, hrest]
    exact ⟨_, rfl⟩
  | case3 t h1 h2 =>
    intro u ht hu
    rw [groupsOf3.eq_def] at ht
    split at ht
    · exact (h1 rfl).elim
    · exact (h2 _ _ _ _ rfl).elim
    · simp at ht

/-! ### Soundness and completeness of the whole-group enumeration -/

theorem numCands_split (s : List Char) (p : List Char × List Char) (h : p ∈ numCands s) :
    s = p.1 ++ p.2 ∧ isNumeral p.1 = true := by
  simp only [numCands, List.mem_flatMap, List.mem_map] at h
  obtain ⟨q, hq, r, hr, rfl⟩ := h
  obtain ⟨hs, h1, h3, hdig⟩ := d13_split s q hq
  obtain ⟨hq2, hg⟩ := starCands_split q.2 r hr
  constructor
  · simp [hs, hq2]
  · rw [isNumeral, List.any_eq_true]
    refine ⟨q.1.length, by rcases (by omega : q.1.length = 1 ∨ q.1.length = 2 ∨ q.1.length = 3)
      with h | h | h <;> simp [h], ?_⟩
    rw [List.take_left, List.drop_left]
    simp [hdig, hg]

theorem numCands_mem (g u : List Char) (hg : isNumeral g = true)
    (hu : ∀ c, u.head? = some c → c ≠ ',') : (g, u) ∈ numCands (g ++ u) := by
  rw [isNumeral, List.any_eq_true] at hg
  obtain ⟨k, hk, hcond⟩ := hg
  simp only [Bool.and_eq_true, beq_iff_eq] at hcond
  obtain ⟨⟨hlen, hdig⟩, hchain⟩ := hcond
  have hsplit : g = g.take k ++ g.drop k := (List.take_append_drop k g).symm
  have hk13 : k = 1 ∨ k = 2 ∨ k = 3 := by simpa using hk
  simp only [numCands, List.mem_flatMap, List.mem_map]
  refine ⟨(g.take k, g.drop k ++ u), ?_, ?_⟩
  · have : g ++ u = g.take k ++ (g.drop k ++ u) := by
      rw [← List.append_assoc, List.take_append_drop]
    rw [this]
    refine d13_mem _ _ ?_ ?_ hdig <;> rw [hlen] <;> rcases hk13 with rfl | rfl | rfl <;> omega
  · refine ⟨(g.drop k, u), ?_, ?_⟩
    · refine starCands_mem _ _ hchain ?_
      intro c hc
      exact hu c hc
    · rw [← hsplit]

theorem isNumeral_head (g : List Char) (hg : isNumeral g = true) :
    ∃ c t, g = c :: t ∧ c.isDigit = true := by
  rw [isNumeral, List.any_eq_true] at hg
  obtain ⟨k, hk, hcond⟩ := hg
  simp only [Bool.and_eq_true, beq_iff_eq] at hcond
  obtain ⟨⟨hlen, hdig⟩, -⟩ := hcond
  have hk1 : 1 ≤ k := by rcases (by simpa using hk : k = 1 ∨ k = 2 ∨ k = 3) with rfl | rfl | rfl <;> omega
  cases g with
  | nil => simp at hlen; omega
  | cons c t =>
    refine ⟨c, t, rfl, ?_⟩
    have hc : c ∈ (c :: t).take k := by
      cases k with
      | zero => omega
      | succ k' => simp [List.take_succ_cons]
    rw [List.all_eq_true] at hdig
    exact hdig c hc

theorem head_cases_of_ws_append (w : List Char) (x : Char) (y : List Char)
    (hw : w.all isWS = true) :
    ∀ c, (w ++ x :: y).head? = some c → isWS c = true ∨ c = x := by
  intro c hc
  cases w with
  | nil =>
    simp only [List.nil_append, List.head?_cons, Option.some.injEq] at hc
    exact Or.inr hc.symm
  | cons a w' =>
    simp only [List.cons_append, List.head?_cons, Option.some.injEq] at hc
    simp only [List.all_cons, Bool.and_eq_true] at hw
    exact Or.inl (hc ▸ hw.1)

/-- Soundness of the anchored matcher: a successful `statsAt` yields a real
decomposition of `s` into the regex's components. -/
theorem statsAt_sound (s g1 g2 g3 : List Char) (h : statsAt s = some (g1, g2, g3)) :
    ∃ w1 w2 w3 w4 w5 post,
      s = g1 ++ w1 ++ followersLit ++ w2 ++ g2 ++ w3 ++ starsLit ++ w4 ++ g3 ++ w5 ++
        forksLit ++ post ∧
      isNumeral g1 = true ∧ isNumeral g2 = true ∧ isNumeral g3 = true ∧
      w1.all isWS = true ∧ w2.all isWS = true ∧ w3.all isWS = true ∧
      w4.all isWS = true ∧ w5.all isWS = true := by
  unfold statsAt at h
  obtain ⟨p1, hp1, hf1⟩ := List.exists_of_findSome?_eq_some h
  cases hdl1 : dropLit followersLit (skipWS p1.2) with
  | none => rw [hdl1] at hf1; simp at hf1
  | some s2 =>
    rw [hdl1] at hf1
    simp only [Option.some_bind] at hf1
    obtain ⟨p2, hp2, hf2⟩ := List.exists_of_findSome?_eq_some hf1
    cases hdl2 : dropLit starsLit (skipWS p2.2) with
    | none => rw [hdl2] at hf2; simp at hf2
    | some s3 =>
      rw [hdl2] at hf2
      simp only [Option.some_bind] at hf2
      obtain ⟨p3, hp3, hf3⟩ := List.exists_of_findSome?_eq_some hf2
      cases hdl3 : dropLit forksLit (skipWS p3.2) with
      | none => rw [hdl3] at hf3; simp at hf3
      | some s4 =>
        rw [hdl3] at hf3
        simp only [Option.some_bind, Option.some.injEq, Prod.mk.injEq] at hf3
        obtain ⟨e1, e2, e3⟩ := hf3
        obtain ⟨hs1, hn1⟩ := numCands_split s p1 hp1
        obtain ⟨hs2, hn2⟩ := numCands_split _ p2 hp2
        obtain ⟨hs3, hn3⟩ := numCands_split _ p3 hp3
        have hw1 := skipWS_decomp p1.2
        have hw2 := skipWS_decomp s2
        have hw3 := skipWS_decomp p2.2
        have hw4 := skipWS_decomp s3
        have hw5 := skipWS_decomp p3.2
        refine ⟨p1.2.takeWhile isWS, s2.takeWhile isWS, p2.2.takeWhile isWS,
          s3.takeWhile isWS, p3.2.takeWhile isWS, s4, ?_,
          e1 ▸ hn1, e2 ▸ hn2, e3 ▸ hn3, hw1.2, hw2.2, hw3.2, hw4.2, hw5.2⟩
        have d1 : skipWS p1.2 = followersLit ++ s2 := dropLit_split _ _ _ hdl1
        have d2 : skipWS p2.2 = starsLit ++ s3 := dropLit_split _ _ _ hdl2
        have d3 : skipWS p3.2 = forksLit ++ s4 := dropLit_split _ _ _ hdl3
        calc s = p1.1 ++ p1.2 := hs1
          _ = p1.1 ++ (p1.2.takeWhile isWS ++ skipWS p1.2) := by rw [← hw1.1]
          _ = p1.1 ++ (p1.2.takeWhile isWS ++ (followersLit ++ s2)) := by rw [d1]
          _ = p1.1 ++ (p1.2.takeWhile isWS ++ (followersLit ++
                (s2.takeWhile isWS ++ skipWS s2))) := by rw [← hw2.1]
          _ = p1.1 ++ (p1.2.takeWhile isWS ++ (followersLit ++
                (s2.takeWhile isWS ++ (p2.1 ++ p2.2)))) := by rw [← hs2]
          _ = p1.1 ++ (p1.2.takeWhile isWS ++ (followersLit ++
                (s2.takeWhile isWS ++ (p2.1 ++ (p2.2.takeWhile isWS ++ skipWS p2.2))))) := by
                rw [← hw3.1]
          _ = p1.1 ++ (p1.2.takeWhile isWS ++ (followersLit ++
                (s2.takeWhile isWS ++ (p2.1 ++ (p2.2.takeWhile isWS ++
                  (starsLit ++ s3)))))) := by rw [d2]
          _ = p1.1 ++ (p1.2.takeWhile isWS ++ (followersLit ++
                (s2.takeWhile isWS ++ (p2.1 ++ (p2.2.takeWhile isWS ++
                  (starsLit ++ (s3.takeWhile isWS ++ skipWS s3))))))) := by rw [← hw4.1]
          _ = p1.1 ++ (p1.2.takeWhile isWS ++ (followersLit ++
                (s2.takeWhile isWS ++ (p2.1 ++ (p2.2.takeWhile isWS ++
                  (starsLit ++ (s3.takeWhile isWS ++ (p3.1 ++ p3.2)))))))) := by rw [← hs3]
          _ = p1.1 ++ (p1.2.takeWhile isWS ++ (followersLit ++
                (s2.takeWhile isWS ++ (p2.1 ++ (p2.2.takeWhile isWS ++
                  (starsLit ++ (s3.takeWhile isWS ++ (p3.1 ++
                    (p3.2.takeWhile isWS ++ skipWS p3.2))))))))) := by rw [← hw5.1]
          _ = p1.1 ++ (p1.2.takeWhile isWS ++ (followersLit ++
                (s2.takeWhile isWS ++ (p2.1 ++ (p2.2.takeWhile isWS ++
                  (starsLit ++ (s3.takeWhile isWS ++ (p3.1 ++
                    (p3.2.takeWhile isWS ++ (forksLit ++ s4)))))))))) := by rw [d3]
          _ = g1 ++ p1.2.takeWhile isWS ++ followersLit ++ s2.takeWhile isWS ++ g2 ++
                p2.2.takeWhile isWS ++ starsLit ++ s3.takeWhile isWS ++ g3 ++
                p3.2.takeWhile isWS ++ forksLit ++ s4 := by
                rw [e1, e2, e3]; simp [List.append_assoc]

/-- Completeness of the anchored matcher: a decomposition at the head of the
string makes `statsAt` succeed. -/
theorem statsAt_complete (g1 w1 w2 g2 w3 w4 g3 w5 post : List Char)
    (hg1 : isNumeral g1 = true) (hg2 : isNumeral g2 = true) (hg3 : isNumeral g3 = true)
    (hw1 : w1.all isWS = true) (hw2 : w2.all isWS = true) (hw3 : w3.all isWS = true)
    (hw4 : w4.all isWS = true) (hw5 : w5.all isWS = true) :
    (statsAt (g1 ++ w1 ++ followersLit ++ w2 ++ g2 ++ w3 ++ starsLit ++ w4 ++ g3 ++ w5 ++
      forksLit ++ post)).isSome = true := by
  obtain ⟨c2, t2, hg2e, hg2d⟩ := isNumeral_head g2 hg2
  obtain ⟨c3, t3, hg3e, hg3d⟩ := isNumeral_head g3 hg3
  rw [statsAt, List.findSome?_isSome_iff]
  have assoc : g1 ++ w1 ++ followersLit ++ w2 ++ g2 ++ w3 ++ starsLit ++ w4 ++ g3 ++ w5 ++
      forksLit ++ post =
      g1 ++ (w1 ++ (followersLit ++ (w2 ++ (g2 ++ (w3 ++ (starsLit ++ (w4 ++ (g3 ++ (w5 ++
        (forksLit ++ post)))))))))) := by simp [List.append_assoc]
  rw [assoc]
  refine ⟨(g1, w1 ++ (followersLit ++ (w2 ++ (g2 ++ (w3 ++ (starsLit ++ (w4 ++ (g3 ++ (w5 ++
    (forksLit ++ post)))))))))), ?_, ?_⟩
  · refine numCands_mem _ _ hg1 ?_
    intro c hc
    rcases head_cases_of_ws_append w1 'f' _ hw1 c hc with hws | rfl
    · exact ne_comma_of_WS c hws
    · simp
  · have e1 : skipWS (w1 ++ (followersLit ++ (w2 ++ (g2 ++ (w3 ++ (starsLit ++ (w4 ++ (g3 ++
        (w5 ++ (forksLit ++ post)))))))))) =
        followersLit ++ (w2 ++ (g2 ++ (w3 ++ (starsLit ++ (w4 ++ (g3 ++ (w5 ++
          (forksLit ++ post)))))))) := by
      refine skipWS_append _ _ hw1 ?_
      intro c hc
      simp only [followersLit, List.cons_append, List.head?_cons, Option.some.injEq] at hc
      subst hc; rfl
    rw [e1, dropLit_append, Option.some_bind, List.findSome?_isSome_iff]
    have e2 : skipWS (w2 ++ (g2 ++ (w3 ++ (starsLit ++ (w4 ++ (g3 ++ (w5 ++
        (forksLit ++ post)))))))) =
        g2 ++ (w3 ++ (starsLit ++ (w4 ++ (g3 ++ (w5 ++ (forksLit ++ post)))))) := by
      refine skipWS_append _ _ hw2 ?_
      intro c hc
      rw [hg2e] at hc
      simp only [List.cons_append, List.head?_cons, Option.some.injEq] at hc
      subst hc; exact not_WS_of_digit _ hg2d
    rw [e2]
    refine ⟨(g2, w3 ++ (starsLit ++ (w4 ++ (g3 ++ (w5 ++ (forksLit ++ post)))))), ?_, ?_⟩
    · refine numCands_mem _ _ hg2 ?_
      intro c hc
      rcases head_cases_of_ws_append w3 's' _ hw3 c hc with hws | rfl
      · exact ne_comma_of_WS c hws
      · simp
    · have e3 : skipWS (w3 ++ (starsLit ++ (w4 ++ (g3 ++ (w5 ++ (forksLit ++ post)))))) =
          starsLit ++ (w4 ++ (g3 ++ (w5 ++ (forksLit ++ post)))) := by
        refine skipWS_append _ _ hw3 ?_
        intro c hc
        simp only [starsLit, List.cons_append, List.head?_cons, Option.some.injEq] at hc
        subst hc; rfl
      rw [e3, dropLit_append, Option.some_bind, List.findSome?_isSome_iff]
      have e4 : skipWS (w4 ++ (g3 ++ (w5 ++ (forksLit ++ post)))) =
          g3 ++ (w5 ++ (forksLit ++ post)) := by
        refine skipWS_append _ _ hw4 ?_
        intro c hc
        rw [hg3e] at hc
        simp only [List.cons_append, List.head?_cons, Option.some.injEq] at hc
        subst hc; exact not_WS_of_digit _ hg3d
      rw [e4]
      refine ⟨(g3, w5 ++ (forksLit ++ post)), ?_, ?_⟩
      · refine numCands_mem _ _ hg3 ?_
        intro c hc
        rcases head_cases_of_ws_append w5 'f' _ hw5 c hc with hws | rfl
        · exact ne_comma_of_WS c hws
        · simp
      · have e5 : skipWS (w5 ++ (forksLit ++ post)) = forksLit ++ post := by
          refine skipWS_append _ _ hw5 ?_
          intro c hc
          simp only [forksLit, List.cons_append, List.head?_cons, Option.some.injEq] at hc
          subst hc; rfl
        rw [e5, dropLit_append, Option.some_bind]
        rfl

theorem searchStats_sound : ∀ (doc : List Char) (g : List Char × List Char × List Char),
    searchStats doc = some g → ∃ pre s, doc = pre ++ s ∧ statsAt s = some g := by
  intro doc
  induction doc with
  | nil => intro g h; simp [searchStats] at h
  | cons c t ih =>
    intro g h
    rw [searchStats] at h
    cases ha : statsAt (c :: t) with
    | some g' =>
      rw [ha] at h
      cases h
      exact ⟨[], c :: t, rfl, ha⟩
    | none =>
      rw [ha] at h
      obtain ⟨pre, s, hd, hs⟩ := ih g h
      exact ⟨c :: pre, s, by simp [hd], hs⟩

theorem searchStats_complete : ∀ (pre s : List Char), s ≠ [] →
    (statsAt s).isSome = true → (searchStats (pre ++ s)).isSome = true := by
  intro pre
  induction pre with
  | nil =>
    intro s hne hs
    cases s with
    | nil => exact absurd rfl hne
    | cons c t =>
      rw [List.nil_append, searchStats]
      cases ha : statsAt (c :: t) with
      | some g => rfl
      | none => rw [ha] at hs; simp at hs
  | cons c pre' ih =>
    intro s hne hs
    rw [List.cons_append, searchStats]
    cases ha : statsAt (c :: (pre' ++ s)) with
    | some g => rfl
    | none => exact ih s hne hs

/-- C6: `extract_current_stats` is total (it never raises, by construction of
the embedding); when the text contains the stats pattern it returns the
comma-stripped integers of an occurrence (the regex's leftmost match); on the
documented example it returns 1234/56789/1000; and when no occurrence exists
it returns zero for all three fields. -/
theorem extract_current_stats_spec (doc : List Char) :
    ((∃ a b c, StatsOccurrence doc a b c) →
      ∃ a b c, StatsOccurrence doc a b c ∧
        extract_current_stats doc =
          ⟨digitsToNat (stripCommas a), digitsToNat (stripCommas b),
            digitsToNat (stripCommas c)⟩) ∧
    ((¬ ∃ a b c, StatsOccurrence doc a b c) → extract_current_stats doc = ⟨0, 0, 0⟩) ∧
    extract_current_stats ("Hello 1,234 followers, 56,789 stars, 1,000 forks World".data) =
      ⟨1234, 56789, 1000⟩ := by
  have sound : ∀ g1 g2 g3, searchStats doc = some (g1, g2, g3) →
      StatsOccurrence doc g1 g2 g3 := by
    intro g1 g2 g3 hg
    obtain ⟨pre, s, rfl, hs⟩ := searchStats_sound doc _ hg
    obtain ⟨w1, w2, w3, w4, w5, post, hdec, hn1, hn2, hn3, h1, h2, h3, h4, h5⟩ :=
      statsAt_sound s g1 g2 g3 hs
    exact ⟨pre, w1, w2, w3, w4, w5, post, by rw [hdec]; simp [List.append_assoc],
      hn1, hn2, hn3, h1, h2, h3, h4, h5⟩
  have complete : (∃ a b c, StatsOccurrence doc a b c) →
      (searchStats doc).isSome = true := by
    rintro ⟨a, b, c, pre, w1, w2, w3, w4, w5, post, hdec, hn1, hn2, hn3,
      hww1, hww2, hww3, hww4, hww5⟩
    have hane : a ≠ [] := by
      obtain ⟨c0, t0, rfl, -⟩ := isNumeral_head a hn1
      simp
    have hdoc : doc = pre ++ (a ++ w1 ++ followersLit ++ w2 ++ b ++ w3 ++ starsLit ++
        w4 ++ c ++ w5 ++ forksLit ++ post) := by
      rw [hdec]; simp [List.append_assoc]
    rw [hdoc]
    refine searchStats_complete _ _ ?_ (statsAt_complete a w1 w2 b w3 w4 c w5 post
      hn1 hn2 hn3 hww1 hww2 hww3 hww4 hww5)
    intro h
    apply hane
    have hl := congrArg List.length h
    simp only [List.length_append, List.length_nil] at hl
    have : a.length = 0 := by omega
    exact List.length_eq_zero.mp this
  refine ⟨?_, ?_, by decide⟩
  · intro hex
    obtain ⟨g, hg⟩ := Option.isSome_iff_exists.mp (complete hex)
    obtain ⟨g1, g2, g3⟩ := g
    exact ⟨g1, g2, g3, sound _ _ _ hg, by simp [extract_current_stats, hg]⟩
  · intro hnex
    cases hsr : searchStats doc with
    | none => simp [extract_current_stats, hsr]
    | some g =>
      obtain ⟨g1, g2, g3⟩ := g
      exact absurd ⟨g1, g2, g3, sound _ _ _ hsr⟩ hnex

/-- Witness for `extract_current_stats_spec`: the occurrence hypothesis is
discharged at a concrete document carrying the pattern. -/
theorem extract_current_stats_spec_witness :
    ∃ a b c, StatsOccurrence ("5 followers, 6 stars, 7 forks".data) a b c ∧
      extract_current_stats ("5 followers, 6 stars, 7 forks".data) =
        ⟨digitsToNat (stripCommas a), digitsToNat (stripCommas b),
          digitsToNat (stripCommas c)⟩ :=
  (extract_current_stats_spec _).1
    ⟨['5'], ['6'], ['7'], [], [' '], [' '], [' '], [' '], [' '], [], by decide⟩

/-! ## The stats text written by `main` and the fallback round trip

`main` renders `"{:,} followers, {:,} stars, {:,} forks".format(...)`; the
`,` format spec groups the decimal digits in threes from the right. -/

/-- The decimal digit character for `d % 10` (total on `Nat`; every output is
a digit). -/
def digitChar : Nat → Char
  | 0 => '0' | 1 => '1' | 2 => '2' | 3 => '3' | 4 => '4'
  | 5 => '5' | 6 => '6' | 7 => '7' | 8 => '8' | _ => '9'

/-- Decimal digits of `n`, most significant first.  The fuel argument is only
decremented (and `n` strictly shrinks) at each step, so `n` fuel suffices; at
fuel 0 the invariant forces `n = 0`. -/
def natDigitsF : Nat → Nat → List Char
  | 0, n => [digitChar (n % 10)]
  | fuel + 1, n =>
    if n < 10 then [digitChar n]
    else natDigitsF fuel (n / 10) ++ [digitChar (n % 10)]

def natDigits (n : Nat) : List Char := natDigitsF n n

/-- Insert `','` after every three characters, working on the reversed digit
string (so the grouping counts from the least significant digit). -/
def commaRev : List Char → List Char
  | a :: b :: c :: d :: r => a :: b :: c :: ',' :: commaRev (d :: r)
  | s => s

/-- Python `"{:,}".format(n)`: thousands separators every 3 digits. -/
def commaFmt (n : Nat) : List Char := (commaRev (natDigits n).reverse).reverse

/-- `"{:,} followers, {:,} stars, {:,} forks".format(...)` from `main`. -/
def statsText (st : Stats) : List Char :=
  commaFmt st.followers ++ " followers, ".data ++ commaFmt st.stars ++
    " stars, ".data ++ commaFmt st.forks ++ " forks".data

theorem natDigitsF_congr : ∀ (f g n : Nat), n ≤ f → n ≤ g →
    natDigitsF f n = natDigitsF g n := by
  intro f
  induction f with
  | zero =>
    intro g n hf hg
    have hn : n = 0 := by omega
    subst hn
    cases g with
    | zero => rfl
    | succ g' => simp [natDigitsF]
  | succ f' ih =>
    intro g n hf hg
    cases g with
    | zero =>
      have hn : n = 0 := by omega
      subst hn
      simp [natDigitsF]
    | succ g' =>
      simp only [natDigitsF]
      by_cases h10 : n < 10
      · simp [h10]
      · have hd : n / 10 < n := Nat.div_lt_self (by omega) (by norm_num)
        simp only [if_neg h10]
        rw [ih g' (n / 10) (by omega) (by omega)]

theorem natDigits_lt10 (n : Nat) (h : n < 10) : natDigits n = [digitChar n] := by
  unfold natDigits
  cases hn : n with
  | zero => rfl
  | succ m => simp [natDigitsF, hn ▸ h]

theorem natDigits_ge10 (n : Nat) (h : 10 ≤ n) :
    natDigits n = natDigits (n / 10) ++ [digitChar (n % 10)] := by
  unfold natDigits
  cases hn : n with
  | zero => omega
  | succ m =>
    simp only [natDigitsF, if_neg (by omega : ¬ (m + 1 < 10))]
    have hd : (m + 1) / 10 < m + 1 := Nat.div_lt_self (by omega) (by norm_num)
    rw [natDigitsF_congr m ((m + 1) / 10) ((m + 1) / 10) (by omega) le_rfl]

theorem digitChar_isDigit : ∀ d : Nat, (digitChar d).isDigit = true := by
  intro d
  match d with
  | 0 | 1 | 2 | 3 | 4 | 5 | 6 | 7 | 8 => rfl
  | n + 9 => rfl

theorem digitChar_val (d : Nat) (h : d < 10) : (digitChar d).toNat - 48 = d := by
  interval_cases d <;> rfl

theorem natDigits_all_digit (n : Nat) : (natDigits n).all Char.isDigit = true := by
  suffices h : ∀ f m : Nat, m ≤ f → (natDigitsF f m).all Char.isDigit = true from
    h n n le_rfl
  intro f
  induction f with
  | zero => intro m hm; simp [natDigitsF, digitChar_isDigit]
  | succ f' ih =>
    intro m hm
    simp only [natDigitsF]
    by_cases h10 : m < 10
    · simp [h10, digitChar_isDigit]
    · have hd : m / 10 < m := Nat.div_lt_self (by omega) (by norm_num)
      simp only [if_neg h10, List.all_append]
      rw [ih (m / 10) (by omega)]
      simp [digitChar_isDigit]

theorem natDigits_ne_nil (n : Nat) : natDigits n ≠ [] := by
  suffices h : ∀ f m : Nat, m ≤ f → natDigitsF f m ≠ [] from h n n le_rfl
  intro f
  induction f with
  | zero => intro m hm; simp [natDigitsF]
  | succ f' ih =>
    intro m hm
    simp only [natDigitsF]
    by_cases h10 : m < 10
    · simp [h10]
    · simp [if_neg h10]

theorem digitsToNat_append_digit (ds : List Char) (c : Char) :
    digitsToNat (ds ++ [c]) = digitsToNat ds * 10 + (c.toNat - 48) := by
  unfold digitsToNat
  rw [List.foldl_append]
  rfl

theorem digitsToNat_natDigits (n : Nat) : digitsToNat (natDigits n) = n := by
  suffices h : ∀ f m : Nat, m ≤ f → digitsToNat (natDigitsF f m) = m from h n n le_rfl
  intro f
  induction f with
  | zero =>
    intro m hm
    have : m = 0 := by omega
    subst this
    rfl
  | succ f' ih =>
    intro m hm
    simp only [natDigitsF]
    by_cases h10 : m < 10
    · simp only [if_pos h10]
      have : digitsToNat [digitChar m] = 0 * 10 + ((digitChar m).toNat - 48) := rfl
      rw [this, digitChar_val m h10]
      omega
    · have hd : m / 10 < m := Nat.div_lt_self (by omega) (by norm_num)
      simp only [if_neg h10]
      rw [digitsToNat_append_digit, ih (m / 10) (by omega),
        digitChar_val (m % 10) (Nat.mod_lt _ (by norm_num))]
      omega

theorem groupsOf3_append : ∀ x y : List Char, groupsOf3 x = true → groupsOf3 y = true →
    groupsOf3 (x ++ y) = true := by
  intro x
  induction x using groupsOf3.induct with
  | case1 => intro y _ hy; simpa using hy
  | case2 a b c r ih =>
    intro y hx hy
    simp only [groupsOf3, Bool.and_eq_true] at hx
    simp only [List.cons_append, groupsOf3, Bool.and_eq_true]
    exact ⟨⟨⟨hx.1.1.1, hx.1.1.2⟩, hx.1.2⟩, ih y hx.2 hy⟩
  | case3 t h1 h2 =>
    intro y hx hy
    rw [groupsOf3.eq_def] at hx
    split at hx
    · exact (h1 rfl).elim
    · exact (h2 _ _ _ _ rfl).elim
    · simp at hx

theorem commaRev_decomp : ∀ rs : List Char, rs ≠ [] → rs.all Char.isDigit = true →
    ∃ g chain, (commaRev rs).reverse = g ++ chain ∧ 1 ≤ g.length ∧ g.length ≤ 3 ∧
      g.all Char.isDigit = true ∧ groupsOf3 chain = true := by
  intro rs
  induction rs using commaRev.induct with
  | case1 a b c d r ih =>
    intro _ hdig
    simp only [List.all_cons, Bool.and_eq_true] at hdig
    obtain ⟨g', chain', he, h1, h3, hgd, hch⟩ :=
      ih (by simp) (by simp [hdig.2.2.2.1, hdig.2.2.2.2])
    refine ⟨g', chain' ++ [',', c, b, a], ?_, h1, h3, hgd, ?_⟩
    · rw [commaRev]
      simp only [List.reverse_cons, List.append_assoc, he]
      simp
    · refine groupsOf3_append _ _ hch ?_
      simp [groupsOf3, hdig.1, hdig.2.1, hdig.2.2.1]
  | case2 s h =>
    intro hne hdig
    have hcr : commaRev s = s := by
      rw [commaRev.eq_def]
      split
      · exact (h _ _ _ _ _ rfl).elim
      · rfl
    have hlen : s.length ≤ 3 := by
      rcases s with _ | ⟨a, _ | ⟨b, _ | ⟨c, _ | ⟨d, r⟩⟩⟩⟩
      · simp
      · simp
      · simp
      · simp
      · exact (h a b c d r rfl).elim
    refine ⟨s.reverse, [], by simp [hcr], ?_, by simpa using hlen, by simpa using hdig, rfl⟩
    have : s.length ≠ 0 := by simpa using hne
    simp only [List.length_reverse]
    omega

theorem commaFmt_decomp (n : Nat) :
    ∃ g chain, commaFmt n = g ++ chain ∧ 1 ≤ g.length ∧ g.length ≤ 3 ∧
      g.all Char.isDigit = true ∧ groupsOf3 chain = true := by
  unfold commaFmt
  refine commaRev_decomp _ ?_ ?_
  · simp [natDigits_ne_nil n]
  · simpa using natDigits_all_digit n

theorem commaFmt_head (n : Nat) : ∃ c t, commaFmt n = c :: t ∧ c.isDigit = true := by
  obtain ⟨g, chain, he, h1, h3, hd, hch⟩ := commaFmt_decomp n
  cases g with
  | nil => simp at h1
  | cons c t =>
    refine ⟨c, t ++ chain, by simp [he], ?_⟩
    simp only [List.all_cons, Bool.and_eq_true] at hd
    exact hd.1

theorem stripCommas_cons (x : Char) (l : List Char) :
    stripCommas (x :: l) = if x = ',' then stripCommas l else x :: stripCommas l := by
  by_cases hx : x = ',' <;> simp [stripCommas, List.filter_cons, hx]

theorem stripCommas_commaRev : ∀ rs : List Char,
    stripCommas (commaRev rs) = stripCommas rs := by
  intro rs
  induction rs using commaRev.induct with
  | case1 a b c d r ih =>
    rw [commaRev]
    simp only [stripCommas_cons, ih]
    simp
  | case2 s h =>
    have hcr : commaRev s = s := by
      rw [commaRev.eq_def]
      split
      · exact (h _ _ _ _ _ rfl).elim
      · rfl
    rw [hcr]

theorem stripCommas_of_digits (ds : List Char) (h : ds.all Char.isDigit = true) :
    stripCommas ds = ds := by
  unfold stripCommas
  rw [List.filter_eq_self]
  intro a ha
  rw [List.all_eq_true] at h
  simpa using ne_comma_of_digit a (h a ha)

theorem stripCommas_commaFmt (n : Nat) : stripCommas (commaFmt n) = natDigits n := by
  unfold commaFmt
  show stripCommas ((commaRev (natDigits n).reverse).reverse) = natDigits n
  unfold stripCommas
  rw [List.filter_reverse]
  have h1 : (commaRev (natDigits n).reverse).filter (fun c => c ≠ ',') =
      ((natDigits n).reverse).filter (fun c => c ≠ ',') := stripCommas_commaRev _
  rw [h1, List.filter_reverse, List.reverse_reverse]
  have h2 : (natDigits n).filter (fun c => c ≠ ',') = natDigits n :=
    stripCommas_of_digits _ (natDigits_all_digit n)
  rw [h2]

/-! ### The greedy (first-candidate) behaviour of the matcher on a formatted
number: the regex captures exactly the `{:,}`-formatted numeral. -/

theorem digCand_none_of_gt (g rest : List Char) (k : Nat) (hk : g.length < k)
    (hnext : ∀ c, rest.head? = some c → c.isDigit = false) :
    digCand k (g ++ rest) = none := by
  unfold digCand
  rw [if_neg]
  rintro ⟨hlen, hdig⟩
  cases rest with
  | nil =>
    rw [List.append_nil] at hlen
    simp only [List.length_take] at hlen
    omega
  | cons c t =>
    have hc : c ∈ (g ++ c :: t).take k := by
      rw [List.take_append_eq_append_take]
      refine List.mem_append_right _ ?_
      cases hkk : k - g.length with
      | zero => omega
      | succ m => simp [List.take_succ_cons]
    rw [List.all_eq_true] at hdig
    have h1 := hdig c hc
    rw [hnext c rfl] at h1
    exact Bool.false_ne_true h1

theorem d13_first (g rest : List Char) (h1 : 1 ≤ g.length) (h3 : g.length ≤ 3)
    (hg : g.all Char.isDigit = true)
    (hnext : ∀ c, rest.head? = some c → c.isDigit = false) :
    ∃ tail, d13Cands (g ++ rest) = (g, rest) :: tail := by
  have hsome := digCand_append g rest hg
  have h123 : g.length = 1 ∨ g.length = 2 ∨ g.length = 3 := by omega
  rcases h123 with hl | hl | hl
  · have n3 := digCand_none_of_gt g rest 3 (by omega) hnext
    have n2 := digCand_none_of_gt g rest 2 (by omega) hnext
    rw [hl] at hsome
    exact ⟨[], by simp [d13Cands, List.filterMap_cons, n3, n2, hsome]⟩
  · have n3 := digCand_none_of_gt g rest 3 (by omega) hnext
    rw [hl] at hsome
    refine ⟨[1].filterMap fun k => digCand k (g ++ rest), ?_⟩
    simp [d13Cands, List.filterMap_cons, n3, hsome]
  · rw [hl] at hsome
    refine ⟨[2, 1].filterMap fun k => digCand k (g ++ rest), ?_⟩
    simp [d13Cands, List.filterMap_cons, hsome]

theorem groupsOf3_head (c : Char) (t : List Char) (h : groupsOf3 (c :: t) = true) :
    c = ',' := by
  rw [groupsOf3.eq_def] at h
  split at h
  · rename_i heq
    exact absurd heq (List.cons_ne_nil _ _)
  · rename_i heq
    injection heq
  · simp at h

theorem numCands_first (g chain rest : List Char)
    (h1 : 1 ≤ g.length) (h3 : g.length ≤ 3) (hg : g.all Char.isDigit = true)
    (hchain : groupsOf3 chain = true)
    (hrest : ∀ c, rest.head? = some c → c.isDigit = false ∧ c ≠ ',') :
    ∃ tail, numCands (g ++ (chain ++ rest)) = (g ++ chain, rest) :: tail := by
  have hnext : ∀ c, (chain ++ rest).head? = some c → c.isDigit = false := by
    intro c hc
    cases chain with
    | nil => exact (hrest c (by simpa using hc)).1
    | cons x xs =>
      have hx : x = ',' := groupsOf3_head x xs hchain
      simp only [List.cons_append, List.head?_cons, Option.some.injEq] at hc
      subst hc
      rw [hx]
      rfl
  obtain ⟨t1, ht1⟩ := d13_first g (chain ++ rest) h1 h3 hg hnext
  obtain ⟨t2, ht2⟩ := starCands_first chain rest hchain (fun c hc => (hrest c hc).2)
  refine ⟨(t2.map fun q => (g ++ q.1, q.2)) ++
    (t1.flatMap fun p => (starCands p.2).map fun q => (p.1 ++ q.1, q.2)), ?_⟩
  rw [numCands, ht1, List.flatMap_cons, ht2]
  simp

theorem findSome?_cons_of_some {α β : Type} (f : α → Option β) (a : α) (l : List α) (b : β)
    (h : f a = some b) : List.findSome? f (a :: l) = some b := by
  rw [List.findSome?_cons, h]

theorem statsText_shape (st : Stats) : statsText st =
    commaFmt st.followers ++ ([' '] ++ (followersLit ++ ([' '] ++ (commaFmt st.stars ++
      ([' '] ++ (starsLit ++ ([' '] ++ (commaFmt st.forks ++ ([' '] ++ forksLit))))))))) := by
  unfold statsText
  have h1 : " followers, ".data = [' '] ++ followersLit ++ [' '] := by decide
  have h2 : " stars, ".data = [' '] ++ starsLit ++ [' '] := by decide
  have h3 : " forks".data = [' '] ++ forksLit := by decide
  rw [h1, h2, h3]
  simp [List.append_assoc]

theorem statsAt_statsText (st : Stats) (post : List Char) :
    statsAt (statsText st ++ post) =
      some (commaFmt st.followers, commaFmt st.stars, commaFmt st.forks) := by
  obtain ⟨gf, cf, hef, h1f, h3f, hdf, hcf⟩ := commaFmt_decomp st.followers
  obtain ⟨gs, cs2, hes, h1s, h3s, hds, hcs⟩ := commaFmt_decomp st.stars
  obtain ⟨gk, ck, hek, h1k, h3k, hdk, hck⟩ := commaFmt_decomp st.forks
  obtain ⟨cS, tS, hSe, hSd⟩ := commaFmt_head st.stars
  obtain ⟨cK, tK, hKe, hKd⟩ := commaFmt_head st.forks
  have hsp : ∀ (x : List Char) (c : Char), (([' '] ++ x).head? = some c) →
      c.isDigit = false ∧ c ≠ ',' := by
    intro x c hc
    simp only [List.cons_append, List.head?_cons, Option.some.injEq] at hc
    subst hc
    exact ⟨rfl, by decide⟩
  have hdoc : statsText st ++ post = commaFmt st.followers ++
      ([' '] ++ (followersLit ++ ([' '] ++ (commaFmt st.stars ++
        ([' '] ++ (starsLit ++ ([' '] ++ (commaFmt st.forks ++
          ([' '] ++ (forksLit ++ post)))))))))) := by
    rw [statsText_shape st]
    simp [List.append_assoc]
  rw [hdoc, statsAt]
  obtain ⟨t1, ht1⟩ := numCands_first gf cf
    ([' '] ++ (followersLit ++ ([' '] ++ (commaFmt st.stars ++
      ([' '] ++ (starsLit ++ ([' '] ++ (commaFmt st.forks ++
        ([' '] ++ (forksLit ++ post))))))))))
    h1f h3f hdf hcf (hsp _)
  rw [hef, List.append_assoc, ht1, ← hef]
  refine findSome?_cons_of_some _ _ _ _ ?_
  simp only []
  have e1 : skipWS ([' '] ++ (followersLit ++ ([' '] ++ (commaFmt st.stars ++
      ([' '] ++ (starsLit ++ ([' '] ++ (commaFmt st.forks ++
        ([' '] ++ (forksLit ++ post)))))))))) =
      followersLit ++ ([' '] ++ (commaFmt st.stars ++
        ([' '] ++ (starsLit ++ ([' '] ++ (commaFmt st.forks ++
          ([' '] ++ (forksLit ++ post)))))))) := by
    refine skipWS_append _ _ (by decide) ?_
    intro c hc
    simp only [followersLit, List.cons_append, List.head?_cons, Option.some.injEq] at hc
    subst hc
    rfl
  rw [e1, dropLit_append, Option.some_bind]
  have e2 : skipWS ([' '] ++ (commaFmt st.stars ++
      ([' '] ++ (starsLit ++ ([' '] ++ (commaFmt st.forks ++
        ([' '] ++ (forksLit ++ post)))))))) =
      commaFmt st.stars ++ ([' '] ++ (starsLit ++ ([' '] ++ (commaFmt st.forks ++
        ([' '] ++ (forksLit ++ post)))))) := by
    refine skipWS_append _ _ (by decide) ?_
    intro c hc
    rw [hSe] at hc
    simp only [List.cons_append, List.head?_cons, Option.some.injEq] at hc
    subst hc
    exact not_WS_of_digit _ hSd
  rw [e2]
  obtain ⟨t2, ht2⟩ := numCands_first gs cs2
    ([' '] ++ (starsLit ++ ([' '] ++ (commaFmt st.forks ++ ([' '] ++ (forksLit ++ post))))))
    h1s h3s hds hcs (hsp _)
  rw [hes, List.append_assoc, ht2, ← hes]
  refine findSome?_cons_of_some _ _ _ _ ?_
  simp only []
  have e3 : skipWS ([' '] ++ (starsLit ++ ([' '] ++ (commaFmt st.forks ++
      ([' '] ++ (forksLit ++ post)))))) =
      starsLit ++ ([' '] ++ (commaFmt st.forks ++ ([' '] ++ (forksLit ++ post)))) := by
    refine skipWS_append _ _ (by decide) ?_
    intro c hc
    simp only [starsLit, List.cons_append, List.head?_cons, Option.some.injEq] at hc
    subst hc
    rfl
  rw [e3, dropLit_append, Option.some_bind]
  have e4 : skipWS ([' '] ++ (commaFmt st.forks ++ ([' '] ++ (forksLit ++ post)))) =
      commaFmt st.forks ++ ([' '] ++ (forksLit ++ post)) := by
    refine skipWS_append _ _ (by decide) ?_
    intro c hc
    rw [hKe] at hc
    simp only [List.cons_append, List.head?_cons, Option.some.injEq] at hc
    subst hc
    exact not_WS_of_digit _ hKd
  rw [e4]
  obtain ⟨t3, ht3⟩ := numCands_first gk ck ([' '] ++ (forksLit ++ post))
    h1k h3k hdk hck (hsp _)
  rw [hek, List.append_assoc, ht3, ← hek]
  refine findSome?_cons_of_some _ _ _ _ ?_
  simp only []
  have e5 : skipWS ([' '] ++ (forksLit ++ post)) = forksLit ++ post := by
    refine skipWS_append _ _ (by decide) ?_
    intro c hc
    simp only [forksLit, List.cons_append, List.head?_cons, Option.some.injEq] at hc
    subst hc
    rfl
  rw [e5, dropLit_append, Option.some_bind]

theorem statsAt_none_of_head_not_digit (c : Char) (t : List Char) (hc : c.isDigit = false) :
    statsAt (c :: t) = none := by
  have hall : ∀ k, digCand (k + 1) (c :: t) = none := by
    intro k
    unfold digCand
    rw [if_neg]
    rintro ⟨-, hdig⟩
    rw [List.take_succ_cons, List.all_cons, Bool.and_eq_true] at hdig
    rw [hc] at hdig
    exact Bool.false_ne_true hdig.1
  have hnum : numCands (c :: t) = [] := by
    simp [numCands, d13Cands, List.filterMap_cons, hall 2, hall 1, hall 0]
  rw [statsAt, hnum]
  rfl

theorem searchStats_skip_nondigit : ∀ pre s : List Char,
    (∀ c ∈ pre, c.isDigit = false) → searchStats (pre ++ s) = searchStats s := by
  intro pre
  induction pre with
  | nil => intro s _; rfl
  | cons c p' ih =>
    intro s hpre
    rw [List.cons_append, searchStats,
      statsAt_none_of_head_not_digit c _ (hpre c (List.mem_cons_self _ _))]
    exact ih s fun x hx => hpre x (List.mem_cons_of_mem _ hx)

theorem searchStats_statsText (st : Stats) (pre post : List Char)
    (hpre : ∀ c ∈ pre, c.isDigit = false) :
    searchStats (pre ++ (statsText st ++ post)) =
      some (commaFmt st.followers, commaFmt st.stars, commaFmt st.forks) := by
  rw [searchStats_skip_nondigit pre _ hpre]
  obtain ⟨c0, t0, hhead, hd0⟩ := commaFmt_head st.followers
  have hct : statsText st ++ post = c0 :: (t0 ++ (" followers, ".data ++ commaFmt st.stars ++
      " stars, ".data ++ commaFmt st.forks ++ " forks".data) ++ post) := by
    unfold statsText
    rw [hhead]
    simp [List.append_assoc]
  rw [hct, searchStats, ← hct, statsAt_statsText st post]

/-- C10 counterexample: a document that contains the formatted stats string,
but also an earlier occurrence of the stats pattern; `extract_current_stats`
returns the earlier occurrence's values, not the formatted record. -/
theorem extract_roundtrip_cex :
    extract_current_stats ("7 followers, 8 stars, 9 forks and ".data ++ statsText ⟨1, 2, 3⟩) =
      ⟨7, 8, 9⟩ ∧ (⟨7, 8, 9⟩ : Stats) ≠ ⟨1, 2, 3⟩ := by
  constructor
  · decide
  · decide

/-- C10 amended: for every stats record, formatting it as
`"{:,} followers, {:,} stars, {:,} forks"` and then applying
`extract_current_stats` to any document that contains the formatted string
with no decimal digit anywhere before it returns the original record. -/
theorem extract_current_stats_roundtrip (st : Stats) (pre post : List Char)
    (hpre : ∀ c ∈ pre, c.isDigit = false) :
    extract_current_stats (pre ++ (statsText st ++ post)) = st := by
  rw [extract_current_stats, searchStats_statsText st pre post hpre]
  show (⟨digitsToNat (stripCommas (commaFmt st.followers)),
    digitsToNat (stripCommas (commaFmt st.stars)),
    digitsToNat (stripCommas (commaFmt st.forks))⟩ : Stats) = st
  rw [stripCommas_commaFmt, stripCommas_commaFmt, stripCommas_commaFmt,
    digitsToNat_natDigits, digitsToNat_natDigits, digitsToNat_natDigits]

/-- Witness for `extract_current_stats_roundtrip` at a concrete record and
digit-free prefix. -/
theorem extract_current_stats_roundtrip_witness :
    extract_current_stats ("Stats: ".data ++ (statsText ⟨1234, 56, 7⟩ ++ " end".data)) =
      ⟨1234, 56, 7⟩ :=
  extract_current_stats_roundtrip ⟨1234, 56, 7⟩ _ _ (by decide)

/-! ## `replace_chunk` (lines 33-58)

The Python code compiles the pattern
`<!--\s*{marker}\s*starts\s*-->.*?<!--\s*{marker}\s*ends\s*-->` with `DOTALL`
and calls `pattern.sub(replacement, content)` where
`replacement = "<!-- {} starts -->{}<!-- {} ends -->".format(marker, chunk, marker)`.

Two behaviours of `re.sub` matter for faithfulness:
* the pattern: `sub` replaces every non-overlapping leftmost match, with the
  lazy `.*?` taking the shortest body.  Each `\s*` of the marker tags sits
  directly before a token whose first character is not whitespace (the marker
  is a word, `starts`/`ends` and `-->` start with non-whitespace), so the
  maximal-munch scan below is exactly the regex's greedy behaviour.  The
  embedding treats the marker as a literal, which matches the Python code for
  markers that are words (`\w+`) — the code interpolates the marker into the
  pattern unescaped, so only such markers are in scope (`isName` below).
* the replacement string is a *template*: `re` processes backslash escapes in
  it (`\n` becomes a newline, `\g<0>` inserts the whole match, an unknown
  letter escape or group reference raises `re.error` — even when the pattern
  never matches, because the template is parsed eagerly).  `parseTemplate`
  implements exactly `re._parser.parse_template` for a pattern with no
  capture groups, and `replace_chunk` returns `Except.error ()` where the
  Python code raises. -/

instance {α β : Type} [DecidableEq α] [DecidableEq β] : DecidableEq (Except α β) := fun x y =>
  match x, y with
  | Except.error a, Except.error b =>
    if h : a = b then isTrue (by rw [h]) else isFalse (by intro he; cases he; exact h rfl)
  | Except.error _, Except.ok _ => isFalse (by intro he; cases he)
  | Except.ok _, Except.error _ => isFalse (by intro he; cases he)
  | Except.ok a, Except.ok b =>
    if h : a = b then isTrue (by rw [h]) else isFalse (by intro he; cases he; exact h rfl)

def commentOpen : List Char := ['<', '!', '-', '-']

def commentClose : List Char := ['-', '-', '>']

def startsWord : List Char := ['s', 't', 'a', 'r', 't', 's']

def endsWord : List Char := ['e', 'n', 'd', 's']

/-- A word character (`\w` over ASCII): the class of markers this embedding
covers, matching the Python code's unescaped interpolation of the marker. -/
def isNameChar (c : Char) : Bool := c.isAlphanum || c = '_'

/-- Markers in scope: nonempty words. -/
def isName (m : List Char) : Bool := !m.isEmpty && m.all isNameChar

/-- Match `<!--\s*{marker}\s*{word}\s*-->` at the head of `s`; return the
consumed text and the remainder. -/
def matchTag (marker word s : List Char) : Option (List Char × List Char) :=
  (dropLit commentOpen s).bind fun s1 =>
    (dropLit marker (s1.dropWhile isWS)).bind fun s2 =>
      (dropLit word (s2.dropWhile isWS)).bind fun s3 =>
        (dropLit commentClose (s3.dropWhile isWS)).map fun s4 =>
          (commentOpen ++ (s1.takeWhile isWS ++ (marker ++ (s2.takeWhile isWS ++
            (word ++ (s3.takeWhile isWS ++ commentClose))))), s4)

/-- The lazy `.*?<!--\s*{marker}\s*ends\s*-->`: scan forward for the earliest
position where the end tag matches; return (body, end-tag text, remainder).
(`matchTag` cannot succeed on `[]`, so the empty case is `none`.) -/
def findEnd (marker : List Char) : List Char → Option (List Char × List Char × List Char)
  | [] => none
  | c :: t =>
    match matchTag marker endsWord (c :: t) with
    | some (tag, rest) => some ([], tag, rest)
    | none =>
      match findEnd marker t with
      | none => none
      | some (body, tag, rest) => some (c :: body, tag, rest)

/-- Match the whole region pattern at the head of `s`; return the full
matched text, the body between the tags, and the remainder. -/
def matchRegion (marker s : List Char) : Option (List Char × List Char × List Char) :=
  (matchTag marker startsWord s).bind fun p =>
    (findEnd marker p.2).map fun q => (p.1 ++ (q.1 ++ q.2.1), q.1, q.2.2)

/-- One item of a parsed `re` replacement template: a literal piece, or the
group-0 reference (`\g<0>`, the whole match). -/
inductive TItem where
  | lit : List Char → TItem
  | group0 : TItem
deriving DecidableEq

/-- Expand a parsed template at a given matched text. -/
def expandT (matched : List Char) : List TItem → List Char
  | [] => []
  | TItem.lit l :: r => l ++ expandT matched r
  | TItem.group0 :: r => matched ++ expandT matched r

def octV (c : Char) : Nat := c.toNat - 48

def isOctal (c : Char) : Bool := '0' ≤ c && c ≤ '7'

def isAsciiLetter (c : Char) : Bool := ('a' ≤ c && c ≤ 'z') || ('A' ≤ c && c ≤ 'Z')

/-- `re._parser.parse_template` for a pattern with no capture groups: literal
characters pass through; `\`-escapes are processed (known escapes become
characters, `\g<0…0>` is the whole-match group, octal escapes become
characters, any other letter escape or any group reference is an error, and
an unknown non-letter escape keeps both characters).  The fuel argument is
decremented once per step while at least one character is consumed, so
`s.length` fuel suffices (at fuel 0 the remaining input is empty). -/
def parseTemplateF : Nat → List Char → Except Unit (List TItem)
  | 0, _ => Except.ok []
  | fuel + 1, s =>
    match s with
    | [] => Except.ok []
    | c :: rest =>
      if c = '\\' then
        match rest with
        | [] => Except.error ()
        | e :: cs =>
          if e = 'g' then
            match cs with
            | '<' :: cs2 =>
              match cs2.dropWhile (fun x => x ≠ '>') with
              | '>' :: cs3 =>
                if (cs2.takeWhile (fun x => x ≠ '>')).all (fun x => x = '0') ∧
                    cs2.takeWhile (fun x => x ≠ '>') ≠ [] then
                  (parseTemplateF fuel cs3).map (fun l => TItem.group0 :: l)
                else Except.error ()
              | _ => Except.error ()
            | _ => Except.error ()
          else if e = '\\' then (parseTemplateF fuel cs).map (fun l => TItem.lit ['\\'] :: l)
          else if e = 'n' then (parseTemplateF fuel cs).map (fun l => TItem.lit ['\n'] :: l)
          else if e = 't' then (parseTemplateF fuel cs).map (fun l => TItem.lit ['\t'] :: l)
          else if e = 'r' then (parseTemplateF fuel cs).map (fun l => TItem.lit ['\r'] :: l)
          else if e = 'a' then (parseTemplateF fuel cs).map (fun l => TItem.lit ['\x07'] :: l)
          else if e = 'b' then (parseTemplateF fuel cs).map (fun l => TItem.lit ['\x08'] :: l)
          else if e = 'f' then (parseTemplateF fuel cs).map (fun l => TItem.lit ['\x0c'] :: l)
          else if e = 'v' then (parseTemplateF fuel cs).map (fun l => TItem.lit ['\x0b'] :: l)
          else if e = '0' then
            match cs with
            | d1 :: cs1 =>
              if isOctal d1 then
                match cs1 with
                | d2 :: cs2 =>
                  if isOctal d2 then
                    (parseTemplateF fuel cs2).map
                      (fun l => TItem.lit [Char.ofNat (octV d1 * 8 + octV d2)] :: l)
                  else (parseTemplateF fuel cs1).map
                    (fun l => TItem.lit [Char.ofNat (octV d1)] :: l)
                | [] => (parseTemplateF fuel cs1).map
                    (fun l => TItem.lit [Char.ofNat (octV d1)] :: l)
              else (parseTemplateF fuel cs).map (fun l => TItem.lit ['\x00'] :: l)
            | [] => Except.ok [TItem.lit ['\x00']]
          else if e.isDigit then
            match cs with
            | d2 :: d3 :: cs2 =>
              if isOctal e ∧ isOctal d2 ∧ isOctal d3 then
                if octV e * 64 + octV d2 * 8 + octV d3 ≤ 255 then
                  (parseTemplateF fuel cs2).map
                    (fun l => TItem.lit [Char.ofNat (octV e * 64 + octV d2 * 8 + octV d3)] :: l)
                else Except.error ()
              else Except.error ()
            | _ => Except.error ()
          else if isAsciiLetter e then Except.error ()
          else (parseTemplateF fuel cs).map (fun l => TItem.lit ['\\', e] :: l)
      else (parseTemplateF fuel rest).map (fun l => TItem.lit [c] :: l)

def parseTemplate (s : List Char) : Except Unit (List TItem) := parseTemplateF s.length s

/-- `pattern.sub`: scan left to right, replace each leftmost non-overlapping
match by the expanded template, and continue after the match.  Each step
consumes at least one character, so `s.length` fuel suffices. -/
def pySubF (marker : List Char) (tmpl : List TItem) : Nat → List Char → List Char
  | 0, s => s
  | fuel + 1, s =>
    match matchRegion marker s with
    | some (matched, _, rest) => expandT matched tmpl ++ pySubF marker tmpl fuel rest
    | none =>
      match s with
      | [] => []
      | c :: t => c :: pySubF marker tmpl fuel t

def pySub (marker : List Char) (tmpl : List TItem) (s : List Char) : List Char :=
  pySubF marker tmpl s.length s

/-- `"<!-- {} starts -->".format(marker)` and its `ends` twin. -/
def canonTag (marker word : List Char) : List Char :=
  commentOpen ++ ([' '] ++ (marker ++ ([' '] ++ (word ++ ([' '] ++ commentClose)))))

/-- `if not inline: chunk = "\n{}\n".format(chunk)`. -/
def wrapChunk (chunk : List Char) (inline : Bool) : List Char :=
  if inline then chunk else '\n' :: (chunk ++ ['\n'])

/-- The replacement string handed to `pattern.sub`. -/
def replTemplateSrc (marker chunkW : List Char) : List Char :=
  canonTag marker startsWord ++ (chunkW ++ canonTag marker endsWord)

/-- `replace_chunk(content, marker, chunk, inline)`.  `Except.error ()` marks
the `re.error` raised while parsing an invalid replacement template. -/
def replace_chunk (content marker chunk : List Char) (inline : Bool) :
    Except Unit (List Char) :=
  (parseTemplate (replTemplateSrc marker (wrapChunk chunk inline))).map fun tmpl =>
    pySub marker tmpl content

/-- Modelled from the spec: "substituting region R with content C, then
extracting R's body".  The source has no extraction function, so re-extraction
is the leftmost match of the same region pattern, returning the body between
the tags (`re.search` with the body as a group would behave identically). -/
def extractBody (marker : List Char) : List Char → Option (List Char)
  | [] => none
  | c :: t =>
    match matchRegion marker (c :: t) with
    | some (_, body, _) => some body
    | none => extractBody marker t

/-! ### Substring occurrence (`hasSub`) and its characterisation -/

/-- Is there a position in `s` where `pat` occurs as a contiguous substring? -/
def hasSub (pat : List Char) : List Char → Bool
  | [] => pat.isEmpty
  | c :: t => pat.isPrefixOf (c :: t) || hasSub pat t

theorem isPrefixOf_iff_ex : ∀ p s : List Char, p.isPrefixOf s = true ↔ ∃ v, s = p ++ v := by
  intro p
  induction p with
  | nil => intro s; simp [List.isPrefixOf]
  | cons a as ih =>
    intro s
    cases s with
    | nil =>
      simp only [List.isPrefixOf]
      constructor
      · intro h; exact absurd h (by simp)
      · rintro ⟨v, hv⟩; simp at hv
    | cons b bs =>
      simp only [List.isPrefixOf, Bool.and_eq_true, beq_iff_eq]
      rw [ih bs]
      constructor
      · rintro ⟨rfl, v, rfl⟩; exact ⟨v, rfl⟩
      · rintro ⟨v, hv⟩
        injection hv with h1 h2
        exact ⟨h1.symm, v, h2⟩

theorem hasSub_iff (pat : List Char) (hpat : pat ≠ []) :
    ∀ s, hasSub pat s = true ↔ ∃ u v, s = u ++ (pat ++ v) := by
  intro s
  induction s with
  | nil =>
    simp only [hasSub]
    constructor
    · intro h; exact absurd h (by simp [List.isEmpty_iff, hpat])
    · rintro ⟨u, v, huv⟩
      have := congrArg List.length huv
      simp at this
      exact absurd (List.length_eq_zero.mp (by omega)) hpat
  | cons c t ih =>
    simp only [hasSub, Bool.or_eq_true]
    rw [isPrefixOf_iff_ex, ih]
    constructor
    · rintro (⟨v, hv⟩ | ⟨u, v, huv⟩)
      · exact ⟨[], v, by simp [hv]⟩
      · exact ⟨c :: u, v, by simp [huv]⟩
    · rintro ⟨u, v, huv⟩
      cases u with
      | nil => exact Or.inl ⟨v, by simpa using huv⟩
      | cons c' u' =>
        injection huv with h1 h2
        exact Or.inr ⟨u', v, h2⟩

theorem hasSub_of_prefix_at (pat u v : List Char) (hpat : pat ≠ [])
    (hp : pat.isPrefixOf v = true) : hasSub pat (u ++ v) = true := by
  obtain ⟨w, rfl⟩ := (isPrefixOf_iff_ex pat v).mp hp
  exact (hasSub_iff pat hpat _).mpr ⟨u, w, rfl⟩

theorem append_single_inj (a b : List Char) (x y : Char) (h : a ++ [x] = b ++ [y]) :
    a = b ∧ x = y := by
  have hl : a.length = b.length := by
    have := congrArg List.length h
    simp at this
    omega
  obtain ⟨h1, h2⟩ := List.append_inj h hl
  injection h2 with h3 _
  exact ⟨h1, h3⟩

theorem hasSub_append_single (pat a : List Char) (x : Char) (hpat : pat ≠ [])
    (hx : x ∉ pat) (ha : hasSub pat a = false) : hasSub pat (a ++ [x]) = false := by
  cases hs : hasSub pat (a ++ [x]) with
  | false => rfl
  | true =>
    exfalso
    obtain ⟨u, v, he⟩ := (hasSub_iff pat hpat _).mp hs
    rcases List.eq_nil_or_concat v with rfl | ⟨v', y, hvy⟩
    · rcases List.eq_nil_or_concat pat with rfl | ⟨p', plast, hpp⟩
      · exact hpat rfl
      · rw [List.concat_eq_append] at hpp
        rw [List.append_nil, hpp] at he
        have he' : a ++ [x] = (u ++ p') ++ [plast] := by simp [he]
        obtain ⟨-, rfl⟩ := append_single_inj _ _ _ _ he'
        rw [hpp] at hx
        exact hx (List.mem_append_right _ (List.mem_singleton_self _))
    · rw [List.concat_eq_append] at hvy
      rw [hvy] at he
      have he' : a ++ [x] = (u ++ (pat ++ v')) ++ [y] := by simp [he]
      obtain ⟨rfl, rfl⟩ := append_single_inj _ _ _ _ he'
      rw [(hasSub_iff pat hpat _).mpr ⟨u, v', rfl⟩] at ha
      exact absurd ha (by decide)

theorem hasSub_cons_false (pat : List Char) (c : Char) (t : List Char)
    (h : hasSub pat (c :: t) = false) :
    pat.isPrefixOf (c :: t) = false ∧ hasSub pat t = false := by
  simpa [hasSub, Bool.or_eq_false_iff] using h

/-- If `"<!--"` occurs nowhere in `a`, and `rest` is empty or begins with
`'<'`, then `"<!--"` is not a prefix of any strict suffix of `a` followed by
`rest`. -/
theorem no_open_at_junk (a rest : List Char) (ha : hasSub commentOpen a = false)
    (hrest : rest = [] ∨ ∃ r', rest = '<' :: r') :
    ∀ u v, a = u ++ v → v ≠ [] → ∀ r, v ++ rest ≠ commentOpen ++ r := by
  rintro u v hav hne r hr
  cases v with
  | nil => exact hne rfl
  | cons x1 v1 =>
    simp only [commentOpen, List.cons_append, List.nil_append] at hr
    injection hr with e1 hr
    cases v1 with
    | nil =>
      rcases hrest with rfl | ⟨r', rfl⟩
      · simp at hr
      · simp only [List.nil_append] at hr
        injection hr with e2 _
        exact absurd e2 (by decide)
    | cons x2 v2 =>
      simp only [List.cons_append] at hr
      injection hr with e2 hr
      cases v2 with
      | nil =>
        rcases hrest with rfl | ⟨r', rfl⟩
        · simp at hr
        · simp only [List.nil_append] at hr
          injection hr with e3 _
          exact absurd e3 (by decide)
      | cons x3 v3 =>
        simp only [List.cons_append] at hr
        injection hr with e3 hr
        cases v3 with
        | nil =>
          rcases hrest with rfl | ⟨r', rfl⟩
          · simp at hr
          · simp only [List.nil_append] at hr
            injection hr with e4 _
            exact absurd e4 (by decide)
        | cons x4 v4 =>
          simp only [List.cons_append] at hr
          injection hr with e4 hr
          subst e1; subst e2; subst e3; subst e4
          have hp : commentOpen.isPrefixOf ('<' :: '!' :: '-' :: '-' :: v4) = true := by
            simp [commentOpen, List.isPrefixOf]
          rw [hav, hasSub_of_prefix_at commentOpen u _ (by decide) hp] at ha
          exact absurd ha (by decide)

/-! ### Facts about names and the tag matcher -/

theorem not_WS_of_nameChar (c : Char) (h : isNameChar c = true) : isWS c = false := by
  cases hw : isWS c with
  | false => rfl
  | true =>
    rcases isWS_cases c hw with rfl | rfl | rfl | rfl | rfl | rfl <;> simp [isNameChar] at h

theorem isName_parts (m : List Char) (hm : isName m = true) :
    m ≠ [] ∧ ∀ c ∈ m, isNameChar c = true := by
  rw [isName, Bool.and_eq_true] at hm
  refine ⟨by simpa [List.isEmpty_iff] using hm.1, ?_⟩
  intro c hc
  exact List.all_eq_true.mp hm.2 c hc

theorem takeWS_append (w v : List Char) (hw : w.all isWS = true)
    (hv : ∀ c, v.head? = some c → isWS c = false) : (w ++ v).takeWhile isWS = w := by
  induction w with
  | nil =>
    cases v with
    | nil => rfl
    | cons c t =>
      have := hv c rfl
      simp [List.takeWhile_cons, this]
  | cons c w' ih =>
    simp only [List.all_cons, Bool.and_eq_true] at hw
    simp only [List.cons_append, List.takeWhile_cons, hw.1]
    simp [ih hw.2]

theorem dropLit_none_iff (lit s : List Char) :
    dropLit lit s = none ↔ ∀ r, s ≠ lit ++ r := by
  constructor
  · intro h r hr
    rw [hr, dropLit_append] at h
    exact Option.some_ne_none _ h
  · intro h
    cases hd : dropLit lit s with
    | none => rfl
    | some r => exact absurd (dropLit_split _ _ _ hd) (h r)

theorem matchTag_split (m w s : List Char) (p : List Char × List Char)
    (h : matchTag m w s = some p) : s = p.1 ++ p.2 := by
  unfold matchTag at h
  cases h1 : dropLit commentOpen s with
  | none => rw [h1] at h; simp at h
  | some s1 =>
    rw [h1, Option.some_bind] at h
    cases h2 : dropLit m (s1.dropWhile isWS) with
    | none => rw [h2] at h; simp at h
    | some s2 =>
      rw [h2, Option.some_bind] at h
      cases h3 : dropLit w (s2.dropWhile isWS) with
      | none => rw [h3] at h; simp at h
      | some s3 =>
        rw [h3, Option.some_bind] at h
        cases h4 : dropLit commentClose (s3.dropWhile isWS) with
        | none => rw [h4] at h; simp at h
        | some s4 =>
          rw [h4] at h
          simp only [Option.map_some', Option.some.injEq] at h
          subst h
          have d1 := dropLit_split _ _ _ h1
          have d2 := dropLit_split _ _ _ h2
          have d3 := dropLit_split _ _ _ h3
          have d4 := dropLit_split _ _ _ h4
          simp only []
          calc s = commentOpen ++ s1 := d1
            _ = commentOpen ++ (s1.takeWhile isWS ++ s1.dropWhile isWS) := by
                rw [List.takeWhile_append_dropWhile]
            _ = commentOpen ++ (s1.takeWhile isWS ++ (m ++ s2)) := by rw [d2]
            _ = commentOpen ++ (s1.takeWhile isWS ++ (m ++ (s2.takeWhile isWS ++
                  s2.dropWhile isWS))) := by rw [List.takeWhile_append_dropWhile]
            _ = commentOpen ++ (s1.takeWhile isWS ++ (m ++ (s2.takeWhile isWS ++
                  (w ++ s3)))) := by rw [d3]
            _ = commentOpen ++ (s1.takeWhile isWS ++ (m ++ (s2.takeWhile isWS ++
                  (w ++ (s3.takeWhile isWS ++ s3.dropWhile isWS))))) := by
                rw [List.takeWhile_append_dropWhile]
            _ = commentOpen ++ (s1.takeWhile isWS ++ (m ++ (s2.takeWhile isWS ++
                  (w ++ (s3.takeWhile isWS ++ (commentClose ++ s4)))))) := by rw [d4]
            _ = (commentOpen ++ (s1.takeWhile isWS ++ (m ++ (s2.takeWhile isWS ++
                  (w ++ (s3.takeWhile isWS ++ commentClose)))))) ++ s4 := by
                simp [List.append_assoc]

theorem matchTag_none_of_no_open (m w s : List Char) (h : ∀ r, s ≠ commentOpen ++ r) :
    matchTag m w s = none := by
  unfold matchTag
  rw [(dropLit_none_iff _ _).mpr h]
  rfl

theorem dropWS_append (w v : List Char) (hw : w.all isWS = true)
    (hv : ∀ c, v.head? = some c → isWS c = false) : (w ++ v).dropWhile isWS = v :=
  skipWS_append w v hw hv

theorem canonTag_cons (m word : List Char) : ∃ Y, canonTag m word = '<' :: Y :=
  ⟨_, rfl⟩

theorem matchTag_canon (m word X : List Char) (hm : isName m = true)
    (hwne : word ≠ []) (hw : ∀ c, word.head? = some c → isWS c = false) :
    matchTag m word (canonTag m word ++ X) = some (canonTag m word, X) := by
  obtain ⟨hmne, hmchars⟩ := isName_parts m hm
  have hmhead : ∀ (A : List Char) (c : Char), (m ++ A).head? = some c → isWS c = false := by
    intro A c hc
    cases m with
    | nil => exact absurd rfl hmne
    | cons m0 mt =>
      simp only [List.cons_append, List.head?_cons, Option.some.injEq] at hc
      subst hc
      exact not_WS_of_nameChar _ (hmchars _ (List.mem_cons_self _ _))
  have hwhead : ∀ (A : List Char) (c : Char), (word ++ A).head? = some c → isWS c = false := by
    intro A c hc
    cases word with
    | nil => exact absurd rfl hwne
    | cons w0 wt =>
      simp only [List.cons_append, List.head?_cons, Option.some.injEq] at hc
      subst hc
      exact hw _ rfl
  have hcchead : ∀ (A : List Char) (c : Char), (commentClose ++ A).head? = some c →
      isWS c = false := by
    intro A c hc
    simp only [commentClose, List.cons_append, List.head?_cons, Option.some.injEq] at hc
    subst hc
    rfl
  have hshape : canonTag m word ++ X =
      commentOpen ++ ([' '] ++ (m ++ ([' '] ++ (word ++ ([' '] ++ (commentClose ++ X)))))) := by
    simp [canonTag, List.append_assoc]
  rw [hshape]
  unfold matchTag
  rw [dropLit_append, Option.some_bind,
    dropWS_append [' '] _ (by decide) (hmhead _), dropLit_append, Option.some_bind,
    dropWS_append [' '] _ (by decide) (hwhead _), dropLit_append, Option.some_bind,
    dropWS_append [' '] _ (by decide) (hcchead _), dropLit_append]
  simp only [Option.map_some', Option.some.injEq]
  rw [takeWS_append [' '] _ (by decide) (hmhead _),
    takeWS_append [' '] _ (by decide) (hwhead _),
    takeWS_append [' '] _ (by decide) (hcchead _)]
  simp [canonTag, List.append_assoc]

theorem matchTag_fst_shape (m w s : List Char) (p : List Char × List Char)
    (h : matchTag m w s = some p) : ∃ r0, p.1 = commentOpen ++ r0 := by
  unfold matchTag at h
  cases h1 : dropLit commentOpen s with
  | none => rw [h1] at h; simp at h
  | some s1 =>
    rw [h1, Option.some_bind] at h
    cases h2 : dropLit m (s1.dropWhile isWS) with
    | none => rw [h2] at h; simp at h
    | some s2 =>
      rw [h2, Option.some_bind] at h
      cases h3 : dropLit w (s2.dropWhile isWS) with
      | none => rw [h3] at h; simp at h
      | some s3 =>
        rw [h3, Option.some_bind] at h
        cases h4 : dropLit commentClose (s3.dropWhile isWS) with
        | none => rw [h4] at h; simp at h
        | some s4 =>
          rw [h4] at h
          simp only [Option.map_some', Option.some.injEq] at h
          subst h
          exact ⟨_, rfl⟩

theorem findEnd_split (m : List Char) : ∀ (s : List Char) (q : List Char × List Char × List Char),
    findEnd m s = some q → s = q.1 ++ (q.2.1 ++ q.2.2) := by
  intro s
  induction s with
  | nil => intro q h; simp [findEnd] at h
  | cons c t ih =>
    intro q h
    rw [findEnd] at h
    cases ht : matchTag m endsWord (c :: t) with
    | some p =>
      obtain ⟨tg, rs⟩ := p
      rw [ht] at h
      have h' : (some ([], tg, rs) : Option (List Char × List Char × List Char)) = some q := h
      cases h'
      simpa using matchTag_split _ _ _ _ ht
    | none =>
      rw [ht] at h
      cases hfe : findEnd m t with
      | none =>
        rw [hfe] at h
        have h' : (none : Option (List Char × List Char × List Char)) = some q := h
        simp at h'
      | some q' =>
        obtain ⟨body, tg, rs⟩ := q'
        rw [hfe] at h
        have h' : (some (c :: body, tg, rs) : Option (List Char × List Char × List Char)) =
          some q := h
        cases h'
        have := ih _ hfe
        simp only []
        rw [List.cons_append, ← this]

theorem matchRegion_split (m s : List Char) (q : List Char × List Char × List Char)
    (h : matchRegion m s = some q) : s = q.1 ++ q.2.2 ∧ q.1 ≠ [] := by
  unfold matchRegion at h
  cases ht : matchTag m startsWord s with
  | none => rw [ht] at h; simp at h
  | some p =>
    obtain ⟨t1, s1⟩ := p
    rw [ht, Option.some_bind] at h
    simp only [] at h
    cases hf : findEnd m s1 with
    | none => rw [hf] at h; simp at h
    | some q' =>
      obtain ⟨body, tg, rs⟩ := q'
      rw [hf] at h
      simp only [Option.map_some', Option.some.injEq] at h
      subst h
      have hsp := matchTag_split _ _ _ _ ht
      simp only [] at hsp
      have hfe := findEnd_split m s1 _ hf
      simp only [] at hfe
      obtain ⟨r0, hr0⟩ := matchTag_fst_shape _ _ _ _ ht
      simp only [] at hr0
      constructor
      · simp only []
        rw [hsp, hfe]
        simp [List.append_assoc]
      · simp only []
        intro hh
        rw [hr0] at hh
        simp [commentOpen] at hh

/-- At a position inside `"<!--"`-free text (with the clean text followed by
nothing or by a `'<'`-headed remainder), no region match can start. -/
theorem matchRegion_none_head_junk (m : List Char) (c : Char) (a' rest : List Char)
    (ha : hasSub commentOpen (c :: a') = false)
    (hrest : rest = [] ∨ ∃ r', rest = '<' :: r') :
    matchRegion m (c :: (a' ++ rest)) = none := by
  have hnotag : matchTag m startsWord (c :: (a' ++ rest)) = none := by
    refine matchTag_none_of_no_open _ _ _ ?_
    intro r hr
    exact no_open_at_junk (c :: a') rest ha hrest [] (c :: a') rfl (by simp) r
      (by simpa using hr)
  unfold matchRegion
  rw [hnotag]
  rfl

theorem pySubF_congr (m : List Char) (tmpl : List TItem) :
    ∀ f g s, s.length ≤ f → s.length ≤ g → pySubF m tmpl f s = pySubF m tmpl g s := by
  intro f
  induction f with
  | zero =>
    intro g s hf _
    have hs : s = [] := List.length_eq_zero.mp (by omega)
    subst hs
    cases g with
    | zero => rfl
    | succ g' => rfl
  | succ f' ih =>
    intro g s hf hg
    cases g with
    | zero =>
      have hs : s = [] := List.length_eq_zero.mp (by omega)
      subst hs
      rfl
    | succ g' =>
      cases hmr : matchRegion m s with
      | some q =>
        obtain ⟨matched, bd, rest⟩ := q
        obtain ⟨hsp, hne⟩ := matchRegion_split m s _ hmr
        simp only [] at hsp hne
        have hrl : rest.length < s.length := by
          rw [hsp]
          cases matched with
          | nil => exact absurd rfl hne
          | cons x xs => simp [List.length_append]; omega
        simp only [pySubF, hmr]
        rw [ih g' rest (by omega) (by omega)]
      | none =>
        cases s with
        | nil => rfl
        | cons c t =>
          simp only [pySubF, hmr]
          have htl : t.length ≤ f' ∧ t.length ≤ g' := by
            simp only [List.length_cons] at hf hg
            omega
          rw [ih g' t htl.1 htl.2]

theorem pySubF_junk (m : List Char) (tmpl : List TItem) :
    ∀ a rest : List Char, hasSub commentOpen a = false →
      (rest = [] ∨ ∃ r', rest = '<' :: r') →
      pySubF m tmpl (a ++ rest).length (a ++ rest) =
        a ++ pySubF m tmpl rest.length rest := by
  intro a
  induction a with
  | nil => intro rest _ _; simp
  | cons c a' ih =>
    intro rest ha hrest
    obtain ⟨hpre, ha'⟩ := hasSub_cons_false _ _ _ ha
    have hmr := matchRegion_none_head_junk m c a' rest ha hrest
    have hshape : (c :: a') ++ rest = c :: (a' ++ rest) := rfl
    rw [hshape]
    have hl : (c :: (a' ++ rest)).length = (a' ++ rest).length + 1 := rfl
    rw [hl]
    simp only [pySubF, hmr]
    rw [ih rest ha' hrest]
    rfl

theorem pySubF_clean (m : List Char) (tmpl : List TItem) (a : List Char)
    (ha : hasSub commentOpen a = false) : pySubF m tmpl a.length a = a := by
  have h := pySubF_junk m tmpl a [] ha (Or.inl rfl)
  have h0 : pySubF m tmpl ([] : List Char).length [] = [] := rfl
  rw [h0] at h
  simpa using h

theorem findEnd_canon (m : List Char) : ∀ (body rest : List Char),
    isName m = true → hasSub commentOpen body = false →
    findEnd m (body ++ (canonTag m endsWord ++ rest)) =
      some (body, canonTag m endsWord, rest) := by
  intro body
  induction body with
  | nil =>
    intro rest hm _
    obtain ⟨Y, hY⟩ := canonTag_cons m endsWord
    have hY2 : canonTag m endsWord ++ rest = '<' :: (Y ++ rest) := by rw [hY]; rfl
    rw [List.nil_append, hY2, findEnd, ← hY2,
      matchTag_canon m endsWord rest hm (by decide) (by intro c hc; cases hc; rfl)]
  | cons c body' ih =>
    intro rest hm hb
    obtain ⟨hpre, hb'⟩ := hasSub_cons_false _ _ _ hb
    have hnotag : matchTag m endsWord (c :: (body' ++ (canonTag m endsWord ++ rest))) =
        none := by
      refine matchTag_none_of_no_open _ _ _ ?_
      intro r hr
      obtain ⟨Y, hY⟩ := canonTag_cons m endsWord
      refine no_open_at_junk (c :: body') (canonTag m endsWord ++ rest) hb ?_ [] _ rfl
        (by simp) r (by simpa using hr)
      right
      exact ⟨Y ++ rest, by rw [hY]; rfl⟩
    have hshape : (c :: body') ++ (canonTag m endsWord ++ rest) =
        c :: (body' ++ (canonTag m endsWord ++ rest)) := rfl
    rw [hshape, findEnd, hnotag, ih rest hm hb']

theorem matchRegion_canon (m body rest : List Char) (hm : isName m = true)
    (hbody : hasSub commentOpen body = false) :
    matchRegion m (canonTag m startsWord ++ (body ++ (canonTag m endsWord ++ rest))) =
      some (canonTag m startsWord ++ (body ++ canonTag m endsWord), body, rest) := by
  unfold matchRegion
  rw [matchTag_canon m startsWord _ hm (by decide) (by intro c hc; cases hc; rfl),
    Option.some_bind]
  simp only []
  rw [findEnd_canon m body rest hm hbody]
  simp [List.append_assoc]

theorem pySub_canon (m : List Char) (tmpl : List TItem) (pre body post : List Char)
    (hm : isName m = true) (hpre : hasSub commentOpen pre = false)
    (hbody : hasSub commentOpen body = false) (hpost : hasSub commentOpen post = false) :
    pySub m tmpl (pre ++ (canonTag m startsWord ++ (body ++ (canonTag m endsWord ++ post)))) =
      pre ++ (expandT (canonTag m startsWord ++ (body ++ canonTag m endsWord)) tmpl ++ post) := by
  unfold pySub
  obtain ⟨Y, hY⟩ := canonTag_cons m startsWord
  have hhead : canonTag m startsWord ++ (body ++ (canonTag m endsWord ++ post)) =
      '<' :: (Y ++ (body ++ (canonTag m endsWord ++ post))) := by rw [hY]; rfl
  rw [pySubF_junk m tmpl pre _ hpre (Or.inr ⟨_, hhead⟩)]
  congr 1
  rw [hhead]
  have hl : ('<' :: (Y ++ (body ++ (canonTag m endsWord ++ post)))).length =
      (Y ++ (body ++ (canonTag m endsWord ++ post))).length + 1 := rfl
  rw [hl]
  simp only [pySubF]
  rw [← hhead, matchRegion_canon m body post hm hbody]
  simp only []
  congr 1
  have hle : post.length ≤ (Y ++ (body ++ (canonTag m endsWord ++ post))).length := by
    simp [List.length_append]
    omega
  rw [pySubF_congr m tmpl _ post.length post hle le_rfl]
  exact pySubF_clean m tmpl post hpost

theorem extractBody_junk (m : List Char) : ∀ a rest : List Char,
    hasSub commentOpen a = false → (rest = [] ∨ ∃ r', rest = '<' :: r') →
    extractBody m (a ++ rest) = extractBody m rest := by
  intro a
  induction a with
  | nil => intro rest _ _; rfl
  | cons c a' ih =>
    intro rest ha hrest
    obtain ⟨hpre, ha'⟩ := hasSub_cons_false _ _ _ ha
    have hmr := matchRegion_none_head_junk m c a' rest ha hrest
    have hshape : (c :: a') ++ rest = c :: (a' ++ rest) := rfl
    rw [hshape, extractBody, hmr, ih rest ha' hrest]

theorem extractBody_canon (m pre body post : List Char) (hm : isName m = true)
    (hpre : hasSub commentOpen pre = false) (hbody : hasSub commentOpen body = false) :
    extractBody m (pre ++ (canonTag m startsWord ++ (body ++ (canonTag m endsWord ++ post)))) =
      some body := by
  obtain ⟨Y, hY⟩ := canonTag_cons m startsWord
  have hhead : canonTag m startsWord ++ (body ++ (canonTag m endsWord ++ post)) =
      '<' :: (Y ++ (body ++ (canonTag m endsWord ++ post))) := by rw [hY]; rfl
  rw [extractBody_junk m pre _ hpre (Or.inr ⟨_, hhead⟩), hhead, extractBody, ← hhead,
    matchRegion_canon m body post hm hbody]

/-! ### The replacement template on backslash-free content -/

theorem parseTemplateF_no_backslash : ∀ (f : Nat) (s : List Char), s.length ≤ f →
    (∀ c ∈ s, c ≠ '\\') →
    parseTemplateF f s = Except.ok (s.map fun c => TItem.lit [c]) := by
  intro f
  induction f with
  | zero =>
    intro s hf _
    have hs : s = [] := List.length_eq_zero.mp (by omega)
    subst hs
    rfl
  | succ f' ih =>
    intro s hf hs
    cases s with
    | nil => rfl
    | cons c rest =>
      have hc : c ≠ '\\' := hs c (List.mem_cons_self _ _)
      simp only [parseTemplateF, if_neg hc]
      rw [ih rest (by simp only [List.length_cons] at hf; omega)
        (fun x hx => hs x (List.mem_cons_of_mem _ hx))]
      rfl

theorem parseTemplate_no_backslash (s : List Char) (hs : ∀ c ∈ s, c ≠ '\\') :
    parseTemplate s = Except.ok (s.map fun c => TItem.lit [c]) :=
  parseTemplateF_no_backslash s.length s le_rfl hs

theorem expandT_lit_map (matched : List Char) : ∀ s : List Char,
    expandT matched (s.map fun c => TItem.lit [c]) = s := by
  intro s
  induction s with
  | nil => rfl
  | cons c t ih => simp [expandT, ih]

theorem nameChar_ne_backslash (c : Char) (h : isNameChar c = true) : c ≠ '\\' := by
  rintro rfl
  revert h
  decide

theorem wrapChunk_no_backslash (chunk : List Char) (il : Bool)
    (h : ∀ c ∈ chunk, c ≠ '\\') : ∀ c ∈ wrapChunk chunk il, c ≠ '\\' := by
  intro c hc
  cases il with
  | true => exact h c (by simpa [wrapChunk] using hc)
  | false =>
    simp only [wrapChunk, if_neg (by decide : ¬ false = true), List.mem_cons,
      List.mem_append, List.mem_singleton] at hc
    rcases hc with rfl | hc | rfl | h0
    · decide
    · exact h c hc
    · decide
    · simp at h0

theorem canonTag_no_backslash (m word : List Char) (hm : isName m = true)
    (hw : ∀ c ∈ word, c ≠ '\\') : ∀ c ∈ canonTag m word, c ≠ '\\' := by
  intro c hc
  obtain ⟨-, hmchars⟩ := isName_parts m hm
  simp only [canonTag, commentOpen, commentClose, List.mem_append, List.mem_cons,
    List.mem_singleton, List.not_mem_nil, or_false] at hc
  rcases hc with (rfl | rfl | rfl | rfl) | rfl | hc | rfl | hc | rfl | (rfl | rfl | rfl)
  · decide
  · decide
  · decide
  · decide
  · decide
  · exact nameChar_ne_backslash c (hmchars c hc)
  · decide
  · exact hw c hc
  · decide
  · decide
  · decide
  · decide

theorem replTemplateSrc_no_backslash (m chunkW : List Char) (hm : isName m = true)
    (hch : ∀ c ∈ chunkW, c ≠ '\\') : ∀ c ∈ replTemplateSrc m chunkW, c ≠ '\\' := by
  intro c hc
  simp only [replTemplateSrc, List.mem_append] at hc
  rcases hc with hc | hc | hc
  · exact canonTag_no_backslash m startsWord hm (by decide) c hc
  · exact hch c hc
  · exact canonTag_no_backslash m endsWord hm (by decide) c hc

theorem hasSub_wrapChunk (chunk : List Char) (il : Bool)
    (h : hasSub commentOpen chunk = false) :
    hasSub commentOpen (wrapChunk chunk il) = false := by
  cases il with
  | true => simpa [wrapChunk] using h
  | false =>
    have h2 : hasSub commentOpen (chunk ++ ['\n']) = false :=
      hasSub_append_single _ _ _ (by decide) (by decide) h
    have hw : wrapChunk chunk false = '\n' :: (chunk ++ ['\n']) := rfl
    have h2x : hasSub ['<', '!', '-', '-'] (chunk ++ ['\n']) = false := h2
    rw [hw]
    simp [hasSub, h2x, commentOpen, List.isPrefixOf]

/-! ### The claims about `replace_chunk` -/

/-- C5 (amended): for a document with one canonically-marked region and no
stray `"<!--"`, and backslash-free content, `replace_chunk` inserts the
content verbatim between the markers when `inline` is true, and wrapped in
one leading and one trailing newline when false; and both concrete scenarios
of the claim hold exactly. -/
theorem replace_chunk_insertion (marker pre body post chunk : List Char) (inline : Bool)
    (hm : isName marker = true)
    (hpre : hasSub commentOpen pre = false) (hbody : hasSub commentOpen body = false)
    (hpost : hasSub commentOpen post = false) (hchunk : ∀ c ∈ chunk, c ≠ '\\') :
    replace_chunk (pre ++ (canonTag marker startsWord ++ (body ++ (canonTag marker endsWord ++
        post)))) marker chunk inline =
      Except.ok (pre ++ (canonTag marker startsWord ++ (wrapChunk chunk inline ++
        (canonTag marker endsWord ++ post)))) ∧
    replace_chunk ("Hello <!-- s starts -->old<!-- s ends --> X".data) ("s".data)
        ("new".data) true = Except.ok ("Hello <!-- s starts -->new<!-- s ends --> X".data) ∧
    replace_chunk ("A<!-- s starts -->x<!-- s ends -->B".data) ("s".data) ("body".data)
        false = Except.ok ("A<!-- s starts -->\nbody\n<!-- s ends -->B".data) := by
  refine ⟨?_, by decide, by decide⟩
  unfold replace_chunk
  rw [parseTemplate_no_backslash _ (replTemplateSrc_no_backslash marker _ hm
    (wrapChunk_no_backslash chunk inline hchunk))]
  simp only [Except.map]
  rw [pySub_canon marker _ pre body post hm hpre hbody hpost]
  rw [expandT_lit_map]
  simp [replTemplateSrc, List.append_assoc]

/-- Witness for `replace_chunk_insertion` at a concrete document. -/
theorem replace_chunk_insertion_witness :
    replace_chunk ("P".data ++ (canonTag ("w".data) startsWord ++ ("x".data ++
        (canonTag ("w".data) endsWord ++ "Q".data)))) ("w".data) ("new".data) true =
      Except.ok ("P".data ++ (canonTag ("w".data) startsWord ++ ("new".data ++
        (canonTag ("w".data) endsWord ++ "Q".data)))) := by
  have h := (replace_chunk_insertion ("w".data) ("P".data) ("x".data) ("Q".data)
    ("new".data) true (by decide) (by decide) (by decide) (by decide)
    (by decide)).1
  simpa [wrapChunk] using h

/-- C5 counterexample: content is not inserted verbatim — `re.sub` processes
the replacement as a template, so a backslash-`n` in the content becomes a
newline in the document. -/
theorem replace_chunk_not_verbatim_cex :
    replace_chunk ("A<!-- s starts -->x<!-- s ends -->B".data) ("s".data) ['\\', 'n'] true =
      Except.ok ("A<!-- s starts -->\n<!-- s ends -->B".data) ∧
    ("A<!-- s starts -->\n<!-- s ends -->B".data : List Char) ≠
      "A<!-- s starts -->".data ++ (['\\', 'n'] ++ "<!-- s ends -->B".data) := by
  exact ⟨by decide, by decide⟩

/-- C1 (amended): substitute-then-extract round trip, for a word marker, a
document whose region is canonically marked with no stray `"<!--"`, and
content free of backslashes and of `"<!--"`. -/
theorem replace_chunk_extract_roundtrip (marker pre body post chunk : List Char)
    (inline : Bool) (hm : isName marker = true)
    (hpre : hasSub commentOpen pre = false) (hbody : hasSub commentOpen body = false)
    (hpost : hasSub commentOpen post = false) (hchunkbs : ∀ c ∈ chunk, c ≠ '\\')
    (hchunkopen : hasSub commentOpen chunk = false) :
    ∃ out, replace_chunk (pre ++ (canonTag marker startsWord ++ (body ++
        (canonTag marker endsWord ++ post)))) marker chunk inline = Except.ok out ∧
      extractBody marker out = some (wrapChunk chunk inline) := by
  refine ⟨_, (replace_chunk_insertion marker pre body post chunk inline hm hpre hbody hpost
    hchunkbs).1, ?_⟩
  exact extractBody_canon marker pre (wrapChunk chunk inline) post hm hpre
    (hasSub_wrapChunk chunk inline hchunkopen)

/-- Witness for `replace_chunk_extract_roundtrip` at a concrete document. -/
theorem replace_chunk_extract_roundtrip_witness :
    ∃ out, replace_chunk ("P".data ++ (canonTag ("w".data) startsWord ++ ("x".data ++
        (canonTag ("w".data) endsWord ++ "Q".data)))) ("w".data) ("hi".data) true =
        Except.ok out ∧
      extractBody ("w".data) out = some (wrapChunk ("hi".data) true) :=
  replace_chunk_extract_roundtrip ("w".data) ("P".data) ("x".data) ("Q".data) ("hi".data)
    true (by decide) (by decide) (by decide) (by decide) (by decide) (by decide)

/-- C1 counterexample: the round trip fails as stated for arbitrary content.
A backslash-`t` comes back as a tab (template processing), and content
containing the region's end marker is cut short at re-extraction. -/
theorem replace_chunk_extract_roundtrip_cex :
    replace_chunk ("<!-- s starts -->x<!-- s ends -->".data) ("s".data) ['\\', 't'] true =
      Except.ok ("<!-- s starts -->\t<!-- s ends -->".data) ∧
    extractBody ("s".data) ("<!-- s starts -->\t<!-- s ends -->".data) = some ['\t'] ∧
    (['\t'] : List Char) ≠ ['\\', 't'] ∧
    replace_chunk ("<!-- s starts -->x<!-- s ends -->".data) ("s".data)
        ("a<!-- s ends -->b".data) true =
      Except.ok ("<!-- s starts -->a<!-- s ends -->b<!-- s ends -->".data) ∧
    extractBody ("s".data) ("<!-- s starts -->a<!-- s ends -->b<!-- s ends -->".data) =
      some ("a".data) ∧
    ("a".data : List Char) ≠ "a<!-- s ends -->b".data := by
  refine ⟨by decide, by decide, by decide, by decide, by decide, by decide⟩

/-- C7: whatever `replace_chunk` returns, the text before the region's start
marker and after its end marker is preserved byte for byte (for any content
at all, including contents whose template expansion inserts arbitrary text). -/
theorem replace_chunk_frame (marker pre body post chunk : List Char) (inline : Bool)
    (out : List Char) (hm : isName marker = true)
    (hpre : hasSub commentOpen pre = false) (hbody : hasSub commentOpen body = false)
    (hpost : hasSub commentOpen post = false)
    (hout : replace_chunk (pre ++ (canonTag marker startsWord ++ (body ++
        (canonTag marker endsWord ++ post)))) marker chunk inline = Except.ok out) :
    ∃ mid, out = pre ++ (mid ++ post) := by
  unfold replace_chunk at hout
  cases hpt : parseTemplate (replTemplateSrc marker (wrapChunk chunk inline)) with
  | error e =>
    rw [hpt] at hout
    exact absurd hout (by simp [Except.map])
  | ok tmpl =>
    rw [hpt] at hout
    simp only [Except.map] at hout
    have h2 : Except.ok (ε := Unit) (pySub marker tmpl (pre ++ (canonTag marker startsWord ++
        (body ++ (canonTag marker endsWord ++ post))))) = Except.ok out := hout
    have h3 : pySub marker tmpl (pre ++ (canonTag marker startsWord ++
        (body ++ (canonTag marker endsWord ++ post)))) = out := by
      injection h2
    rw [pySub_canon marker tmpl pre body post hm hpre hbody hpost] at h3
    exact ⟨_, h3.symm⟩

/-- Witness for `replace_chunk_frame` at a concrete run. -/
theorem replace_chunk_frame_witness :
    ∃ mid, ("P".data ++ (canonTag ("w".data) startsWord ++ ("z".data ++
        (canonTag ("w".data) endsWord ++ "Q".data))) : List Char) =
      "P".data ++ (mid ++ "Q".data) :=
  replace_chunk_frame ("w".data) ("P".data) ("x".data) ("Q".data) ("z".data) true
    ("P".data ++ (canonTag ("w".data) startsWord ++ ("z".data ++
      (canonTag ("w".data) endsWord ++ "Q".data))))
    (by decide) (by decide) (by decide) (by decide) (by decide)

theorem pySubF_of_extractBody_none (m : List Char) (tmpl : List TItem) :
    ∀ s : List Char, extractBody m s = none → pySubF m tmpl s.length s = s := by
  intro s
  induction s with
  | nil => intro _; rfl
  | cons c t ih =>
    intro h
    rw [extractBody] at h
    cases hmr : matchRegion m (c :: t) with
    | some q =>
      obtain ⟨mt, bd, rs⟩ := q
      rw [hmr] at h
      have h' : (some bd : Option (List Char)) = none := h
      simp at h'
    | none =>
      rw [hmr] at h
      have h2 : extractBody m t = none := h
      have hl : (c :: t).length = t.length + 1 := rfl
      rw [hl]
      simp only [pySubF, hmr]
      rw [ih h2]

/-- C8 (amended): when the document contains no span matching the region
pattern and the content is backslash-free, `replace_chunk` returns the
document unchanged and raises no error. -/
theorem replace_chunk_nomatch (content marker chunk : List Char) (inline : Bool)
    (hm : isName marker = true) (hchunk : ∀ c ∈ chunk, c ≠ '\\')
    (hno : extractBody marker content = none) :
    replace_chunk content marker chunk inline = Except.ok content := by
  unfold replace_chunk
  rw [parseTemplate_no_backslash _ (replTemplateSrc_no_backslash marker _ hm
    (wrapChunk_no_backslash chunk inline hchunk))]
  simp only [Except.map]
  unfold pySub
  rw [pySubF_of_extractBody_none marker _ content hno]

/-- Witness for `replace_chunk_nomatch` at a concrete document. -/
theorem replace_chunk_nomatch_witness :
    replace_chunk ("nothing here".data) ("s".data) ("z".data) true =
      Except.ok ("nothing here".data) :=
  replace_chunk_nomatch ("nothing here".data) ("s".data) ("z".data) true (by decide)
    (by decide) (by decide)

/-- C8 counterexample: the claim's "raises no error, for any content" fails —
an invalid escape in the content makes `re.sub` raise even though the
document contains no matching span at all. -/
theorem replace_chunk_raises_cex :
    extractBody ("s".data) ("hello".data) = none ∧
    replace_chunk ("hello".data) ("s".data) ['\\', 'q'] true = Except.error () := by
  exact ⟨by decide, by decide⟩

end BuildReadme
